import Mathlib

/-!
Verification of the EESSI `api_data` metadata aggregation scripts.

This file embeds the core logic of `scripts/merge_data_files.py` and
`scripts/process_eessi_software_metadata.py` as executable Lean definitions
and proves the specified properties about them.
-/

set_option maxHeartbeats 1000000

/-! ## A model of the YAML/JSON-like values handled by `merge_data_files.py`

Python values loaded from the YAML documents are scalars, lists, or
string-keyed dictionaries.  Scalars are modelled as opaque strings; a
dictionary is modelled as its insertion-ordered association list. -/

inductive Val where
  | atom : String → Val
  | arr : List Val → Val
  | dict : List (String × Val) → Val

/-- Keys of an association list, in order. -/
def keysOf {α : Type} (xs : List (String × α)) : List String :=
  xs.map Prod.fst

/-- First-match lookup in an association list (Python `d[key]` on a
dictionary without duplicate keys). -/
def lookupKey {α : Type} : List (String × α) → String → Option α
  | [], _ => none
  | (k, v) :: rest, key => if k = key then some v else lookupKey rest key

/-- Replace the value stored under an existing key, keeping its position
(Python `d[key] = v` for a present key). -/
def setKey {α : Type} : List (String × α) → String → α → List (String × α)
  | [], _, _ => []
  | (k, v) :: rest, key, newV =>
    if k = key then (k, newV) :: rest else (k, v) :: setKey rest key newV

/-- Whether an association list has no duplicate keys (always true of a
Python dictionary). -/
def nodupKeys {α : Type} : List (String × α) → Bool
  | [] => true
  | (k, _) :: rest => !(lookupKey rest k).isSome && nodupKeys rest

/-- Evaluation of a Python dict literal: entries are inserted left to
right, a repeated key overwrites the earlier value in place. -/
def mkDict {α : Type} (entries : List (String × α)) : List (String × α) :=
  entries.foldl
    (fun acc p =>
      match lookupKey acc p.1 with
      | some _ => setKey acc p.1 p.2
      | none => acc ++ [p]) []

section AListLemmas

variable {α : Type}

theorem lookupKey_append (xs ys : List (String × α)) (k : String) :
    lookupKey (xs ++ ys) k = (lookupKey xs k).or (lookupKey ys k) := by
  induction xs with
  | nil => simp [lookupKey]
  | cons p rest ih =>
    obtain ⟨k', v⟩ := p
    by_cases h : k' = k <;> simp [lookupKey, h, ih]

theorem lookupKey_isSome_iff_mem (xs : List (String × α)) (k : String) :
    (lookupKey xs k).isSome = true ↔ k ∈ keysOf xs := by
  induction xs with
  | nil => simp [lookupKey, keysOf]
  | cons p rest ih =>
    obtain ⟨k', v⟩ := p
    by_cases h : k' = k <;> simp [lookupKey, keysOf, h, ih]
    exact fun h2 => absurd h2.symm h

theorem lookupKey_eq_none_iff (xs : List (String × α)) (k : String) :
    lookupKey xs k = none ↔ k ∉ keysOf xs := by
  rw [← lookupKey_isSome_iff_mem]
  cases lookupKey xs k <;> simp

theorem lookupKey_setKey_self (xs : List (String × α)) (k : String) (w : α) :
    (lookupKey xs k).isSome = true →
    lookupKey (setKey xs k w) k = some w := by
  induction xs with
  | nil => intro h; simp [lookupKey] at h
  | cons p rest ih =>
    intro h
    obtain ⟨k', v⟩ := p
    by_cases hk : k' = k
    · simp [setKey, lookupKey, hk]
    · simp [setKey, lookupKey, hk] at h ⊢
      exact ih h

theorem lookupKey_setKey_ne (xs : List (String × α)) (k k' : String) (w : α) :
    k' ≠ k →
    lookupKey (setKey xs k w) k' = lookupKey xs k' := by
  induction xs with
  | nil => intro _; simp [setKey]
  | cons p rest ih =>
    intro h
    obtain ⟨k0, v⟩ := p
    simp only [setKey]
    by_cases hk : k0 = k
    · subst hk
      have hne : ¬ k0 = k' := fun hh => h (hh ▸ rfl)
      simp [lookupKey, hne]
    · simp only [if_neg hk, lookupKey]
      by_cases hk' : k0 = k'
      · simp [hk']
      · simp [hk', ih h]

theorem keysOf_setKey (xs : List (String × α)) (k : String) (w : α) :
    keysOf (setKey xs k w) = keysOf xs := by
  induction xs with
  | nil => simp [setKey]
  | cons p rest ih =>
    obtain ⟨k0, v⟩ := p
    by_cases hk : k0 = k <;> simp [setKey, keysOf, hk] <;> simpa [keysOf] using ih

theorem keysOf_append (xs ys : List (String × α)) :
    keysOf (xs ++ ys) = keysOf xs ++ keysOf ys := by
  simp [keysOf]

theorem lookupKey_of_mem_nodup (xs : List (String × α)) (k : String) (v : α) :
    nodupKeys xs = true → (k, v) ∈ xs → lookupKey xs k = some v := by
  induction xs with
  | nil => intro _ hmem; simp at hmem
  | cons p rest ih =>
    intro hnd hmem
    obtain ⟨k0, v0⟩ := p
    simp only [nodupKeys, Bool.and_eq_true, Bool.not_eq_true'] at hnd
    rw [List.mem_cons] at hmem
    rcases hmem with hmem | hmem
    · cases hmem
      simp [lookupKey]
    · by_cases hk : k0 = k
      · subst hk
        exfalso
        have hsome : (lookupKey rest k0).isSome = true := by
          rw [lookupKey_isSome_iff_mem]
          exact List.mem_map_of_mem Prod.fst hmem
        rw [hnd.1] at hsome
        simp at hsome
      · simp only [lookupKey, hk, if_false]
        exact ih hnd.2 hmem

theorem mem_of_lookupKey_eq_some (xs : List (String × α)) (k : String) (v : α) :
    lookupKey xs k = some v → (k, v) ∈ xs := by
  induction xs with
  | nil => intro h; simp [lookupKey] at h
  | cons p rest ih =>
    intro h
    obtain ⟨k0, v0⟩ := p
    by_cases hk : k0 = k
    · subst hk
      simp [lookupKey] at h
      simp [h]
    · simp [lookupKey, hk] at h
      exact List.mem_cons_of_mem _ (ih h)

theorem sizeOf_lookupKey {β : Type} [SizeOf β] (xs : List (String × β)) (k : String) (v : β) :
    lookupKey xs k = some v → sizeOf v < sizeOf xs := by
  induction xs with
  | nil => intro h; simp [lookupKey] at h
  | cons p rest ih =>
    intro h
    obtain ⟨k0, v0⟩ := p
    by_cases hk : k0 = k
    · subst hk
      simp [lookupKey] at h
      subst h
      simp
      omega
    · simp [lookupKey, hk] at h
      have := ih h
      simp
      omega

theorem nodupKeys_setKey (xs : List (String × α)) (k : String) (w : α) :
    nodupKeys xs = true → nodupKeys (setKey xs k w) = true := by
  induction xs with
  | nil => intro _; simp [setKey, nodupKeys]
  | cons p rest ih =>
    intro h
    obtain ⟨k0, v0⟩ := p
    simp only [nodupKeys, Bool.and_eq_true, Bool.not_eq_true'] at h
    by_cases hk : k0 = k
    · subst hk
      simp only [setKey, if_pos rfl, nodupKeys, Bool.and_eq_true, Bool.not_eq_true']
      exact ⟨h.1, h.2⟩
    · simp only [setKey, hk, if_false, nodupKeys, Bool.and_eq_true, Bool.not_eq_true']
      refine ⟨?_, ih h.2⟩
      rw [lookupKey_setKey_ne rest k k0 w hk]
      exact h.1

theorem nodupKeys_append_singleton (xs : List (String × α)) (k : String) (w : α) :
    nodupKeys xs = true → lookupKey xs k = none →
    nodupKeys (xs ++ [(k, w)]) = true := by
  induction xs with
  | nil => intro _ _; simp [nodupKeys, lookupKey]
  | cons p rest ih =>
    intro hnd habs
    obtain ⟨k0, v0⟩ := p
    simp only [nodupKeys, Bool.and_eq_true, Bool.not_eq_true'] at hnd
    by_cases hk : k0 = k
    · subst hk
      simp [lookupKey] at habs
    · simp only [lookupKey, hk, if_false] at habs
      simp only [List.cons_append, nodupKeys, Bool.and_eq_true, Bool.not_eq_true']
      refine ⟨?_, ih hnd.2 habs⟩
      rw [List.append_eq, lookupKey_append]
      have h0 : lookupKey rest k0 = none :=
        Option.not_isSome_iff_eq_none.mp (by simp [hnd.1])
      rw [h0]
      simp [lookupKey, hk]
      exact fun hh => hk hh.symm

end AListLemmas

/-! ## Python structural equality on values

`strict_merge` compares non-dictionary values with Python `==`, which
compares scalars by value, lists pointwise, and (nested) dictionaries as
key-value maps regardless of insertion order. -/

mutual

/-- Python `==` on values. -/
def pyEq : Val → Val → Bool
  | .atom s, .atom t => s == t
  | .arr xs, .arr ys => pyEqList xs ys
  | .dict xs, .dict ys => pyEqEntries xs ys && keysSubsetB ys xs
  | _, _ => false
termination_by a b => sizeOf a + sizeOf b

/-- Pointwise Python `==` on lists of values. -/
def pyEqList : List Val → List Val → Bool
  | [], [] => true
  | x :: xs, y :: ys => pyEq x y && pyEqList xs ys
  | _, _ => false
termination_by xs ys => sizeOf xs + sizeOf ys

/-- Search a dictionary for key `k` and compare its value to `v`. -/
def pyEqFind : String → Val → List (String × Val) → Bool
  | _, _, [] => false
  | k, v, (k', w) :: rest => if k' = k then pyEq v w else pyEqFind k v rest
termination_by k v ys => sizeOf v + sizeOf ys

/-- Every entry of the first dictionary is present with a Python-equal
value in the second. -/
def pyEqEntries : List (String × Val) → List (String × Val) → Bool
  | [], _ => true
  | (k, v) :: rest, ys => pyEqFind k v ys && pyEqEntries rest ys
termination_by xs ys => sizeOf xs + sizeOf ys

/-- Every key of the first dictionary occurs in the second. -/
def keysSubsetB : List (String × Val) → List (String × Val) → Bool
  | [], _ => true
  | (k, _) :: rest, ys => (lookupKey ys k).isSome && keysSubsetB rest ys
termination_by xs ys => sizeOf xs + sizeOf ys

end

/-! ## Well-formed values

A value produced by the YAML loader has no duplicate keys in any of its
dictionaries. -/

mutual

/-- No dictionary anywhere inside the value has duplicate keys. -/
def wfvB : Val → Bool
  | .atom _ => true
  | .arr xs => wfvList xs
  | .dict xs => nodupKeys xs && wfvEntries xs
termination_by a => sizeOf a

/-- All values in the list are well-formed. -/
def wfvList : List Val → Bool
  | [] => true
  | x :: xs => wfvB x && wfvList xs
termination_by xs => sizeOf xs

/-- All values in the association list are well-formed. -/
def wfvEntries : List (String × Val) → Bool
  | [] => true
  | (_, v) :: rest => wfvB v && wfvEntries rest
termination_by xs => sizeOf xs

end

theorem pyEqFind_eq_lookup (k : String) (v : Val) (ys : List (String × Val)) :
    pyEqFind k v ys =
      (match lookupKey ys k with
       | some w => pyEq v w
       | none => false) := by
  induction ys with
  | nil => simp [pyEqFind, lookupKey]
  | cons p rest ih =>
    obtain ⟨k', w⟩ := p
    by_cases h : k' = k <;> simp [pyEqFind, lookupKey, h, ih]

theorem pyEqEntries_iff (xs ys : List (String × Val)) :
    pyEqEntries xs ys = true ↔
      ∀ p ∈ xs, ∃ w, lookupKey ys p.1 = some w ∧ pyEq p.2 w = true := by
  induction xs with
  | nil => simp [pyEqEntries]
  | cons p rest ih =>
    obtain ⟨k, v⟩ := p
    simp only [pyEqEntries, Bool.and_eq_true, ih, pyEqFind_eq_lookup]
    constructor
    · rintro ⟨h1, h2⟩ q hq
      rw [List.mem_cons] at hq
      rcases hq with hq | hq
      · subst hq
        cases hl : lookupKey ys k with
        | none => rw [hl] at h1; simp at h1
        | some w =>
          rw [hl] at h1
          exact ⟨w, rfl, h1⟩
      · exact h2 q hq
    · intro h
      constructor
      · obtain ⟨w, hw, hpe⟩ := h (k, v) (List.mem_cons_self _ _)
        simp only at hw
        rw [hw]
        exact hpe
      · exact fun q hq => h q (List.mem_cons_of_mem _ hq)

theorem keysSubsetB_iff (xs ys : List (String × Val)) :
    keysSubsetB xs ys = true ↔ ∀ k ∈ keysOf xs, k ∈ keysOf ys := by
  induction xs with
  | nil => simp [keysSubsetB, keysOf]
  | cons p rest ih =>
    obtain ⟨k, v⟩ := p
    simp only [keysSubsetB, Bool.and_eq_true, ih, keysOf, List.map_cons, List.mem_cons]
    rw [lookupKey_isSome_iff_mem]
    constructor
    · rintro ⟨h1, h2⟩ k' hk'
      rcases hk' with hk' | hk'
      · subst hk'; exact h1
      · exact h2 k' hk'
    · intro h
      exact ⟨h k (Or.inl rfl), fun k' hk' => h k' (Or.inr hk')⟩

theorem pyEq_dict_dict (xs ys : List (String × Val)) :
    pyEq (.dict xs) (.dict ys) = (pyEqEntries xs ys && keysSubsetB ys xs) := by
  rw [pyEq]

theorem pyEq_arr_arr (xs ys : List Val) :
    pyEq (.arr xs) (.arr ys) = pyEqList xs ys := by
  rw [pyEq]

theorem pyEq_atom_atom (s t : String) :
    pyEq (.atom s) (.atom t) = (s == t) := by
  rw [pyEq]

theorem pyEq_dict_not_dict (xs : List (String × Val)) (b : Val)
    (h : ∀ ys, b ≠ .dict ys) : pyEq (.dict xs) b = false := by
  cases b with
  | atom s =>
    rw [pyEq]
    all_goals intros
    all_goals simp_all
  | arr l =>
    rw [pyEq]
    all_goals intros
    all_goals simp_all
  | dict ys => exact absurd rfl (h ys)

theorem pyEq_not_dict_dict (a : Val) (ys : List (String × Val))
    (h : ∀ xs, a ≠ .dict xs) : pyEq a (.dict ys) = false := by
  cases a with
  | atom s =>
    rw [pyEq]
    all_goals intros
    all_goals simp_all
  | arr l =>
    rw [pyEq]
    all_goals intros
    all_goals simp_all
  | dict xs => exact absurd rfl (h xs)

theorem wfv_dict_iff (xs : List (String × Val)) :
    wfvB (.dict xs) = true ↔ nodupKeys xs = true ∧ wfvEntries xs = true := by
  rw [wfvB]
  simp

theorem wfvEntries_mem (xs : List (String × Val)) (p : String × Val) :
    wfvEntries xs = true → p ∈ xs → wfvB p.2 = true := by
  induction xs with
  | nil => intro _ h; simp at h
  | cons q rest ih =>
    intro hwf hmem
    obtain ⟨k, v⟩ := q
    rw [wfvEntries] at hwf
    simp only [Bool.and_eq_true] at hwf
    rw [List.mem_cons] at hmem
    rcases hmem with hmem | hmem
    · subst hmem; exact hwf.1
    · exact ih hwf.2 hmem

theorem wfvList_mem (xs : List Val) (x : Val) :
    wfvList xs = true → x ∈ xs → wfvB x = true := by
  induction xs with
  | nil => intro _ h; simp at h
  | cons q rest ih =>
    intro hwf hmem
    rw [wfvList] at hwf
    simp only [Bool.and_eq_true] at hwf
    rw [List.mem_cons] at hmem
    rcases hmem with hmem | hmem
    · subst hmem; exact hwf.1
    · exact ih hwf.2 hmem

theorem wfv_dict_lookup (xs : List (String × Val)) (k : String) (v : Val) :
    wfvB (.dict xs) = true → lookupKey xs k = some v → wfvB v = true := by
  intro hwf hl
  rw [wfv_dict_iff] at hwf
  exact wfvEntries_mem xs (k, v) hwf.2 (mem_of_lookupKey_eq_some xs k v hl)

theorem pyEqList_refl_of (xs : List Val) :
    (∀ x ∈ xs, pyEq x x = true) → pyEqList xs xs = true := by
  induction xs with
  | nil => intro _; rw [pyEqList]
  | cons x rest ih =>
    intro h
    rw [pyEqList]
    simp only [Bool.and_eq_true]
    exact ⟨h x (List.mem_cons_self _ _), ih fun y hy => h y (List.mem_cons_of_mem _ hy)⟩

theorem keysSubsetB_refl (xs : List (String × Val)) : keysSubsetB xs xs = true := by
  rw [keysSubsetB_iff]
  exact fun k hk => hk

theorem pyEqEntries_refl_of (xs : List (String × Val)) :
    ∀ ys, (∀ p ∈ xs, pyEq p.2 p.2 = true) →
      (∀ p ∈ xs, lookupKey ys p.1 = some p.2) →
      pyEqEntries xs ys = true := by
  induction xs with
  | nil => intro ys _ _; rw [pyEqEntries]
  | cons p rest ih =>
    intro ys h1 h2
    obtain ⟨k, v⟩ := p
    rw [pyEqEntries]
    simp only [Bool.and_eq_true]
    constructor
    · rw [pyEqFind_eq_lookup]
      have hl := h2 (k, v) (List.mem_cons_self _ _)
      simp only at hl
      rw [hl]
      exact h1 (k, v) (List.mem_cons_self _ _)
    · exact ih ys (fun q hq => h1 q (List.mem_cons_of_mem _ hq))
        (fun q hq => h2 q (List.mem_cons_of_mem _ hq))

theorem pyEq_refl_aux : ∀ n a, sizeOf a ≤ n → wfvB a = true → pyEq a a = true := by
  intro n
  induction n with
  | zero =>
    intro a h _
    exfalso
    cases a <;> simp at h <;> omega
  | succ n ih =>
    intro a hsz hwf
    cases a with
    | atom s =>
      rw [pyEq]
      simp
    | arr xs =>
      rw [pyEq]
      apply pyEqList_refl_of
      intro x hx
      have hm := List.sizeOf_lt_of_mem hx
      have hb : sizeOf (Val.arr xs) = 1 + sizeOf xs := by simp
      refine ih x (by omega) (wfvList_mem xs x ?_ hx)
      rw [wfvB] at hwf
      exact hwf
    | dict xs =>
      rw [pyEq]
      rw [wfv_dict_iff] at hwf
      simp only [Bool.and_eq_true]
      refine ⟨?_, keysSubsetB_refl xs⟩
      apply pyEqEntries_refl_of
      · intro p hp
        have hm := List.sizeOf_lt_of_mem hp
        have hb : sizeOf (Val.dict xs) = 1 + sizeOf xs := by simp
        have hps : sizeOf p.2 < sizeOf xs := by
          obtain ⟨pk, pv⟩ := p
          simp at hm ⊢
          omega
        exact ih p.2 (by omega) (wfvEntries_mem xs p hwf.2 hp)
      · intro p hp
        obtain ⟨pk, pv⟩ := p
        exact lookupKey_of_mem_nodup xs pk pv hwf.1 hp

theorem pyEq_refl (a : Val) (h : wfvB a = true) : pyEq a a = true :=
  pyEq_refl_aux (sizeOf a) a le_rfl h

/-! ## The strict merge of `scripts/merge_data_files.py`

`strict_merge(a, b, path)` recursively merges dictionary `b` into `a`,
raising `ValueError(f"Conflict at {path}: {a!r} != {b!r}")` on mismatched
non-dictionary values.  The raised message is modelled by its three
components: the offending path and the two conflicting values. -/

structure MergeErr where
  path : String
  left : Val
  right : Val

/-- Model of `sub_path = f"{path}.{key}" if path else key`. -/
def subPath (path key : String) : String :=
  if path = "" then key else path ++ "." ++ key

/-- Discriminator for Python `isinstance(v, dict)`. -/
def isDictV : Val → Bool
  | .dict _ => true
  | _ => false

mutual

/-- Model of `strict_merge` from `scripts/merge_data_files.py`. -/
def strict_merge (a b : Val) (path : String) : Except MergeErr Val :=
  match a, b with
  | .dict xs, .dict ys =>
    match mergeEntries xs ys path with
    | .ok zs => .ok (.dict zs)
    | .error e => .error e
  | a, b => if pyEq a b then .ok a else .error ⟨path, a, b⟩
termination_by sizeOf b

/-- The `for key in b` loop of `strict_merge`: entries of `b` are folded
into `a`; an absent key is adopted, a present key is merged recursively. -/
def mergeEntries (xs ys : List (String × Val)) (path : String) :
    Except MergeErr (List (String × Val)) :=
  match ys with
  | [] => .ok xs
  | (k, w) :: rest =>
    match lookupKey xs k with
    | none => mergeEntries (xs ++ [(k, w)]) rest path
    | some v =>
      match strict_merge v w (subPath path k) with
      | .ok m => mergeEntries (setKey xs k m) rest path
      | .error e => .error e
termination_by sizeOf ys

end

theorem strict_merge_dict_dict (xs ys : List (String × Val)) (p : String) :
    strict_merge (.dict xs) (.dict ys) p =
      match mergeEntries xs ys p with
      | .ok zs => .ok (.dict zs)
      | .error e => .error e := by
  rw [strict_merge]

theorem strict_merge_not_both_dict (a b : Val) (p : String)
    (h : isDictV a = false ∨ isDictV b = false) :
    strict_merge a b p = if pyEq a b then .ok a else .error ⟨p, a, b⟩ := by
  cases a with
  | atom s =>
    cases b with
    | atom t =>
      rw [strict_merge]
      all_goals intros
      all_goals simp_all
    | arr l =>
      rw [strict_merge]
      all_goals intros
      all_goals simp_all
    | dict ys =>
      rw [strict_merge]
      all_goals intros
      all_goals simp_all
  | arr l =>
    cases b with
    | atom t =>
      rw [strict_merge]
      all_goals intros
      all_goals simp_all
    | arr l2 =>
      rw [strict_merge]
      all_goals intros
      all_goals simp_all
    | dict ys =>
      rw [strict_merge]
      all_goals intros
      all_goals simp_all
  | dict xs =>
    cases b with
    | atom t =>
      rw [strict_merge]
      all_goals intros
      all_goals simp_all
    | arr l2 =>
      rw [strict_merge]
      all_goals intros
      all_goals simp_all
    | dict ys => simp [isDictV] at h

theorem mergeEntries_nil (xs : List (String × Val)) (p : String) :
    mergeEntries xs [] p = .ok xs := by
  rw [mergeEntries]

theorem mergeEntries_cons (xs : List (String × Val)) (k : String) (w : Val)
    (rest : List (String × Val)) (p : String) :
    mergeEntries xs ((k, w) :: rest) p =
      match lookupKey xs k with
      | none => mergeEntries (xs ++ [(k, w)]) rest p
      | some v =>
        match strict_merge v w (subPath p k) with
        | .ok m => mergeEntries (setKey xs k m) rest p
        | .error e => .error e := by
  rw [mergeEntries]

theorem mergeEntries_cons_absent (xs : List (String × Val)) (k : String) (w : Val)
    (rest : List (String × Val)) (p : String) (hl : lookupKey xs k = none) :
    mergeEntries xs ((k, w) :: rest) p = mergeEntries (xs ++ [(k, w)]) rest p := by
  rw [mergeEntries_cons, hl]

theorem mergeEntries_cons_present_ok (xs : List (String × Val)) (k : String) (w v m : Val)
    (rest : List (String × Val)) (p : String) (hl : lookupKey xs k = some v)
    (hm : strict_merge v w (subPath p k) = .ok m) :
    mergeEntries xs ((k, w) :: rest) p = mergeEntries (setKey xs k m) rest p := by
  rw [mergeEntries_cons, hl]
  show (match strict_merge v w (subPath p k) with
        | .ok m => mergeEntries (setKey xs k m) rest p
        | .error e => .error e) = _
  rw [hm]

theorem mergeEntries_cons_present_error (xs : List (String × Val)) (k : String) (w v : Val)
    (e : MergeErr) (rest : List (String × Val)) (p : String)
    (hl : lookupKey xs k = some v)
    (hm : strict_merge v w (subPath p k) = .error e) :
    mergeEntries xs ((k, w) :: rest) p = .error e := by
  rw [mergeEntries_cons, hl]
  show (match strict_merge v w (subPath p k) with
        | .ok m => mergeEntries (setKey xs k m) rest p
        | .error e => .error e) = _
  rw [hm]

theorem mergeEntries_ok_keys (ys : List (String × Val)) :
    ∀ xs p zs, mergeEntries xs ys p = .ok zs →
      ∀ k, (k ∈ keysOf zs ↔ k ∈ keysOf xs ∨ k ∈ keysOf ys) := by
  induction ys with
  | nil =>
    intro xs p zs h k
    rw [mergeEntries_nil] at h
    cases h
    simp [keysOf]
  | cons q rest ih =>
    intro xs p zs h k
    obtain ⟨k0, w0⟩ := q
    cases hl : lookupKey xs k0 with
    | none =>
      rw [mergeEntries_cons_absent xs k0 w0 rest p hl] at h
      have hch := ih (xs ++ [(k0, w0)]) p zs h k
      rw [hch, keysOf_append]
      simp [keysOf]
      tauto
    | some v =>
      cases hm : strict_merge v w0 (subPath p k0) with
      | ok m =>
        rw [mergeEntries_cons_present_ok xs k0 w0 v m rest p hl hm] at h
        have hch := ih (setKey xs k0 m) p zs h k
        rw [keysOf_setKey] at hch
        rw [hch]
        simp [keysOf]
        constructor
        · tauto
        · rintro (h1 | h1 | h1)
          · exact Or.inl h1
          · subst h1
            exact Or.inl ⟨v, mem_of_lookupKey_eq_some xs k v hl⟩
          · exact Or.inr h1
      | error e =>
        rw [mergeEntries_cons_present_error xs k0 w0 v e rest p hl hm] at h
        cases h

theorem lookupKey_cons_self {α : Type} (k : String) (v : α) (rest : List (String × α)) :
    lookupKey ((k, v) :: rest) k = some v := by
  simp [lookupKey]

theorem lookupKey_cons_ne {α : Type} (k0 k : String) (v : α) (rest : List (String × α))
    (h : k0 ≠ k) : lookupKey ((k0, v) :: rest) k = lookupKey rest k := by
  simp [lookupKey, h]

theorem mergeEntries_ok_char (ys : List (String × Val)) :
    ∀ xs p zs, nodupKeys ys = true → mergeEntries xs ys p = .ok zs →
      ∀ k, lookupKey zs k =
        match lookupKey xs k, lookupKey ys k with
        | some v, some w => (strict_merge v w (subPath p k)).toOption
        | some v, none => some v
        | none, some w => some w
        | none, none => none := by
  induction ys with
  | nil =>
    intro xs p zs _ h k
    rw [mergeEntries_nil] at h
    cases h
    cases hx : lookupKey xs k <;> simp [lookupKey, hx]
  | cons q rest ih =>
    intro xs p zs hnd h k
    obtain ⟨k0, w0⟩ := q
    simp only [nodupKeys, Bool.and_eq_true, Bool.not_eq_true'] at hnd
    have hrest0 : lookupKey rest k0 = none :=
      Option.not_isSome_iff_eq_none.mp (by simp [hnd.1])
    cases hl : lookupKey xs k0 with
    | none =>
      rw [mergeEntries_cons_absent xs k0 w0 rest p hl] at h
      have hch := ih (xs ++ [(k0, w0)]) p zs hnd.2 h k
      by_cases hk : k = k0
      · subst hk
        rw [lookupKey_append, hl, hrest0, lookupKey_cons_self] at hch
        rw [hl, lookupKey_cons_self]
        exact hch
      · have hne : k0 ≠ k := fun hh => hk hh.symm
        rw [lookupKey_append, lookupKey_cons_ne k0 k w0 [] hne] at hch
        rw [lookupKey_cons_ne k0 k w0 rest hne]
        simp only [lookupKey, Option.or_none] at hch
        exact hch
    | some v =>
      cases hm : strict_merge v w0 (subPath p k0) with
      | ok m =>
        rw [mergeEntries_cons_present_ok xs k0 w0 v m rest p hl hm] at h
        have hch := ih (setKey xs k0 m) p zs hnd.2 h k
        by_cases hk : k = k0
        · subst hk
          have hset : lookupKey (setKey xs k m) k = some m :=
            lookupKey_setKey_self xs k m (by rw [hl]; rfl)
          rw [hset, hrest0] at hch
          rw [hl, lookupKey_cons_self]
          show lookupKey zs k = (strict_merge v w0 (subPath p k)).toOption
          rw [hm]
          exact hch
        · have hne : k0 ≠ k := fun hh => hk hh.symm
          rw [lookupKey_setKey_ne xs k0 k m hk] at hch
          rw [lookupKey_cons_ne k0 k w0 rest hne]
          exact hch
      | error e =>
        rw [mergeEntries_cons_present_error xs k0 w0 v e rest p hl hm] at h
        cases h

theorem mergeEntries_ok_sub (ys xs : List (String × Val)) (p : String)
    (zs : List (String × Val)) (hndy : nodupKeys ys = true)
    (h : mergeEntries xs ys p = .ok zs) (k : String) (v w : Val)
    (hx : lookupKey xs k = some v) (hy : lookupKey ys k = some w) :
    ∃ m, strict_merge v w (subPath p k) = .ok m ∧ lookupKey zs k = some m := by
  have hch := mergeEntries_ok_char ys xs p zs hndy h k
  rw [hx, hy] at hch
  have hch2 : lookupKey zs k = (strict_merge v w (subPath p k)).toOption := hch
  have hkeys := mergeEntries_ok_keys ys xs p zs h k
  have hmem : k ∈ keysOf zs := by
    rw [hkeys]
    left
    rw [← lookupKey_isSome_iff_mem, hx]
    rfl
  rw [← lookupKey_isSome_iff_mem] at hmem
  cases hms : strict_merge v w (subPath p k) with
  | ok m =>
    refine ⟨m, rfl, ?_⟩
    rw [hch2, hms]
    rfl
  | error e =>
    exfalso
    rw [hch2, hms] at hmem
    simp [Except.toOption] at hmem

theorem mergeEntries_ok_nodup (ys : List (String × Val)) :
    ∀ xs p zs, nodupKeys xs = true → mergeEntries xs ys p = .ok zs →
      nodupKeys zs = true := by
  induction ys with
  | nil =>
    intro xs p zs hx h
    rw [mergeEntries_nil] at h
    cases h
    exact hx
  | cons q rest ih =>
    intro xs p zs hx h
    obtain ⟨k0, w0⟩ := q
    cases hl : lookupKey xs k0 with
    | none =>
      rw [mergeEntries_cons_absent xs k0 w0 rest p hl] at h
      exact ih (xs ++ [(k0, w0)]) p zs (nodupKeys_append_singleton xs k0 w0 hx hl) h
    | some v =>
      cases hm : strict_merge v w0 (subPath p k0) with
      | ok m =>
        rw [mergeEntries_cons_present_ok xs k0 w0 v m rest p hl hm] at h
        exact ih (setKey xs k0 m) p zs (nodupKeys_setKey xs k0 m hx) h
      | error e =>
        rw [mergeEntries_cons_present_error xs k0 w0 v e rest p hl hm] at h
        cases h

theorem wfvEntries_append_singleton (xs : List (String × Val)) (k : String) (w : Val)
    (hx : wfvEntries xs = true) (hw : wfvB w = true) :
    wfvEntries (xs ++ [(k, w)]) = true := by
  induction xs with
  | nil =>
    rw [List.nil_append, wfvEntries]
    simp only [Bool.and_eq_true]
    exact ⟨hw, by rw [wfvEntries]⟩
  | cons q rest ih =>
    obtain ⟨k0, v0⟩ := q
    rw [wfvEntries] at hx
    simp only [Bool.and_eq_true] at hx
    rw [List.cons_append, wfvEntries]
    simp only [Bool.and_eq_true]
    exact ⟨hx.1, ih hx.2⟩

theorem wfvEntries_setKey (xs : List (String × Val)) (k : String) (m : Val)
    (hx : wfvEntries xs = true) (hm : wfvB m = true) :
    wfvEntries (setKey xs k m) = true := by
  induction xs with
  | nil => rw [setKey]; exact hx
  | cons q rest ih =>
    obtain ⟨k0, v0⟩ := q
    rw [wfvEntries] at hx
    simp only [Bool.and_eq_true] at hx
    rw [setKey]
    by_cases hk : k0 = k
    · rw [if_pos hk, wfvEntries]
      simp only [Bool.and_eq_true]
      exact ⟨hm, hx.2⟩
    · rw [if_neg hk, wfvEntries]
      simp only [Bool.and_eq_true]
      exact ⟨hx.1, ih hx.2⟩

theorem setKey_same {α : Type} (xs : List (String × α)) (k : String) (v : α)
    (h : lookupKey xs k = some v) : setKey xs k v = xs := by
  induction xs with
  | nil => rw [setKey]
  | cons q rest ih =>
    obtain ⟨k0, v0⟩ := q
    rw [setKey]
    by_cases hk : k0 = k
    · subst hk
      rw [lookupKey_cons_self] at h
      cases h
      rw [if_pos rfl]
    · rw [lookupKey_cons_ne k0 k v0 rest hk] at h
      rw [if_neg hk, ih h]

theorem strict_merge_wf_aux :
    ∀ n b, sizeOf b ≤ n → ∀ a p m, wfvB a = true → wfvB b = true →
      strict_merge a b p = .ok m → wfvB m = true := by
  intro n
  induction n with
  | zero =>
    intro b h
    exfalso
    cases b <;> simp at h <;> omega
  | succ n ih =>
    intro b hsz a p m ha hb hok
    by_cases hd : isDictV a = true ∧ isDictV b = true
    · obtain ⟨xs, rfl⟩ : ∃ xs, a = Val.dict xs := by
        cases a with
        | atom s => simp [isDictV] at hd
        | arr l => simp [isDictV] at hd
        | dict xs => exact ⟨xs, rfl⟩
      obtain ⟨ys, rfl⟩ : ∃ ys, b = Val.dict ys := by
        cases b with
        | atom s => simp [isDictV] at hd
        | arr l => simp [isDictV] at hd
        | dict ys => exact ⟨ys, rfl⟩
      rw [strict_merge_dict_dict] at hok
      cases hme : mergeEntries xs ys p with
      | error e => rw [hme] at hok; cases hok
      | ok zs =>
        rw [hme] at hok
        cases hok
        rw [wfv_dict_iff] at ha hb ⊢
        have hszys : ∀ q ∈ ys, sizeOf q.2 ≤ n := by
          intro q hq
          have hm1 := List.sizeOf_lt_of_mem hq
          have hb1 : sizeOf (Val.dict ys) = 1 + sizeOf ys := by simp
          obtain ⟨qk, qv⟩ := q
          simp at hm1 ⊢
          omega
        refine ⟨mergeEntries_ok_nodup ys xs p zs ha.1 hme, ?_⟩
        -- re-do the fold, tracking well-formedness of the accumulator
        have main : ∀ ys2 xs2 p2 zs2, (∀ q ∈ ys2, q ∈ ys) →
            wfvEntries xs2 = true →
            mergeEntries xs2 ys2 p2 = .ok zs2 → wfvEntries zs2 = true := by
          intro ys2
          induction ys2 with
          | nil =>
            intro xs2 p2 zs2 _ hwx h
            rw [mergeEntries_nil] at h
            cases h
            exact hwx
          | cons q rest ihy =>
            intro xs2 p2 zs2 hsub hwx h
            obtain ⟨k0, w0⟩ := q
            have hw0 : wfvB w0 = true :=
              wfvEntries_mem ys (k0, w0) hb.2 (hsub (k0, w0) (List.mem_cons_self _ _))
            cases hl : lookupKey xs2 k0 with
            | none =>
              rw [mergeEntries_cons_absent xs2 k0 w0 rest p2 hl] at h
              exact ihy (xs2 ++ [(k0, w0)]) p2 zs2
                (fun q hq => hsub q (List.mem_cons_of_mem _ hq))
                (wfvEntries_append_singleton xs2 k0 w0 hwx hw0) h
            | some v =>
              cases hm2 : strict_merge v w0 (subPath p2 k0) with
              | ok mm =>
                rw [mergeEntries_cons_present_ok xs2 k0 w0 v mm rest p2 hl hm2] at h
                have hv : wfvB v = true :=
                  wfvEntries_mem xs2 (k0, v) hwx (mem_of_lookupKey_eq_some xs2 k0 v hl)
                have hmmwf : wfvB mm = true :=
                  ih w0 (hszys (k0, w0) (hsub (k0, w0) (List.mem_cons_self _ _)))
                    v (subPath p2 k0) mm hv hw0 hm2
                exact ihy (setKey xs2 k0 mm) p2 zs2
                  (fun q hq => hsub q (List.mem_cons_of_mem _ hq))
                  (wfvEntries_setKey xs2 k0 mm hwx hmmwf) h
              | error e =>
                rw [mergeEntries_cons_present_error xs2 k0 w0 v e rest p2 hl hm2] at h
                cases h
        exact main ys xs p zs (fun q hq => hq) ha.2 hme
    · have hd2 : isDictV a = false ∨ isDictV b = false := by
        by_cases h1 : isDictV a = true
        · by_cases h2 : isDictV b = true
          · exact absurd ⟨h1, h2⟩ hd
          · exact Or.inr (Bool.eq_false_iff.mpr h2)
        · exact Or.inl (Bool.eq_false_iff.mpr h1)
      rw [strict_merge_not_both_dict a b p hd2] at hok
      by_cases hpe : pyEq a b = true
      · rw [if_pos hpe] at hok
        cases hok
        exact ha
      · rw [if_neg hpe] at hok
        cases hok

theorem isDict_exists (a : Val) (h : isDictV a = true) : ∃ xs, a = .dict xs := by
  cases a with
  | atom s => simp [isDictV] at h
  | arr l => simp [isDictV] at h
  | dict xs => exact ⟨xs, rfl⟩

theorem not_both_dict_of (a b : Val) (hd : ¬(isDictV a = true ∧ isDictV b = true)) :
    isDictV a = false ∨ isDictV b = false := by
  by_cases h1 : isDictV a = true
  · by_cases h2 : isDictV b = true
    · exact absurd ⟨h1, h2⟩ hd
    · exact Or.inr (Bool.eq_false_iff.mpr h2)
  · exact Or.inl (Bool.eq_false_iff.mpr h1)

theorem strict_merge_ok_dict_inv (xs ys : List (String × Val)) (p : String) (m : Val)
    (h : strict_merge (.dict xs) (.dict ys) p = .ok m) :
    ∃ zs, mergeEntries xs ys p = .ok zs ∧ m = .dict zs := by
  rw [strict_merge_dict_dict] at h
  cases hme : mergeEntries xs ys p with
  | ok zs =>
    rw [hme] at h
    cases h
    exact ⟨zs, rfl, rfl⟩
  | error e =>
    rw [hme] at h
    cases h

theorem strict_merge_ok_nondict_inv (a b : Val) (p : String) (m : Val)
    (hd : isDictV a = false ∨ isDictV b = false)
    (h : strict_merge a b p = .ok m) : pyEq a b = true ∧ m = a := by
  rw [strict_merge_not_both_dict a b p hd] at h
  by_cases hpe : pyEq a b = true
  · rw [if_pos hpe] at h
    cases h
    exact ⟨hpe, rfl⟩
  · rw [if_neg hpe] at h
    cases h

theorem strict_merge_self_aux :
    ∀ n a, sizeOf a ≤ n → wfvB a = true → ∀ p, strict_merge a a p = .ok a := by
  intro n
  induction n with
  | zero =>
    intro a h
    exfalso
    cases a <;> simp at h <;> omega
  | succ n ih =>
    intro a hsz ha p
    by_cases hd : isDictV a = true
    · obtain ⟨xs, rfl⟩ := isDict_exists a hd
      rw [strict_merge_dict_dict]
      suffices h : mergeEntries xs xs p = .ok xs by rw [h]
      rw [wfv_dict_iff] at ha
      have hszxs : sizeOf (Val.dict xs) = 1 + sizeOf xs := by simp
      have main : ∀ ys xs2 p2, (∀ q ∈ ys, q ∈ xs) →
          (∀ q ∈ ys, lookupKey xs2 q.1 = some q.2) →
          mergeEntries xs2 ys p2 = .ok xs2 := by
        intro ys
        induction ys with
        | nil => intro xs2 p2 _ _; rw [mergeEntries_nil]
        | cons q rest ihy =>
          intro xs2 p2 hsub hlook
          obtain ⟨k0, w0⟩ := q
          have hl : lookupKey xs2 k0 = some w0 := hlook (k0, w0) (List.mem_cons_self _ _)
          have hmemx : (k0, w0) ∈ xs := hsub (k0, w0) (List.mem_cons_self _ _)
          have hw0 : wfvB w0 = true := wfvEntries_mem xs (k0, w0) ha.2 hmemx
          have hsw0 : sizeOf w0 ≤ n := by
            have hm1 := List.sizeOf_lt_of_mem hmemx
            simp at hm1
            omega
          have hm : strict_merge w0 w0 (subPath p2 k0) = .ok w0 := ih w0 hsw0 hw0 _
          rw [mergeEntries_cons_present_ok xs2 k0 w0 w0 w0 rest p2 hl hm]
          rw [setKey_same xs2 k0 w0 hl]
          exact ihy xs2 p2 (fun q hq => hsub q (List.mem_cons_of_mem _ hq))
            (fun q hq => hlook q (List.mem_cons_of_mem _ hq))
      refine main xs xs p (fun q hq => hq) ?_
      intro q hq
      obtain ⟨qk, qv⟩ := q
      exact lookupKey_of_mem_nodup xs qk qv ha.1 hq
    · have hd2 : isDictV a = false ∨ isDictV a = false :=
        Or.inl (Bool.eq_false_iff.mpr hd)
      rw [strict_merge_not_both_dict a a p hd2, if_pos (pyEq_refl a ha)]

theorem strict_merge_comm_aux :
    ∀ n a b, sizeOf a + sizeOf b ≤ n → wfvB a = true → wfvB b = true →
      ∀ p m₁ m₂, strict_merge a b p = .ok m₁ → strict_merge b a p = .ok m₂ →
      pyEq m₁ m₂ = true := by
  intro n
  induction n with
  | zero =>
    intro a b h
    exfalso
    cases a <;> simp at h <;> omega
  | succ n ih =>
    intro a b hsz ha hb p m₁ m₂ hok1 hok2
    by_cases hd : isDictV a = true ∧ isDictV b = true
    · obtain ⟨xs, rfl⟩ := isDict_exists a hd.1
      obtain ⟨ys, rfl⟩ := isDict_exists b hd.2
      obtain ⟨zs₁, hme₁, rfl⟩ := strict_merge_ok_dict_inv xs ys p m₁ hok1
      obtain ⟨zs₂, hme₂, rfl⟩ := strict_merge_ok_dict_inv ys xs p m₂ hok2
      have hax := (wfv_dict_iff xs).mp ha
      have hby := (wfv_dict_iff ys).mp hb
      have hnz₁ : nodupKeys zs₁ = true := mergeEntries_ok_nodup ys xs p zs₁ hax.1 hme₁
      have hwz₁ : wfvB (Val.dict zs₁) = true :=
        strict_merge_wf_aux (sizeOf (Val.dict ys)) (Val.dict ys) le_rfl
          (Val.dict xs) p (Val.dict zs₁) ha hb hok1
      have hwz₂ : wfvB (Val.dict zs₂) = true :=
        strict_merge_wf_aux (sizeOf (Val.dict xs)) (Val.dict xs) le_rfl
          (Val.dict ys) p (Val.dict zs₂) hb ha hok2
      have hkeys₁ := mergeEntries_ok_keys ys xs p zs₁ hme₁
      have hkeys₂ := mergeEntries_ok_keys xs ys p zs₂ hme₂
      have hszxs : sizeOf (Val.dict xs) = 1 + sizeOf xs := by simp
      have hszys : sizeOf (Val.dict ys) = 1 + sizeOf ys := by simp
      rw [pyEq_dict_dict]
      simp only [Bool.and_eq_true]
      constructor
      · rw [pyEqEntries_iff]
        intro q hq
        obtain ⟨k, u⟩ := q
        have hlz₁ : lookupKey zs₁ k = some u := lookupKey_of_mem_nodup zs₁ k u hnz₁ hq
        have hch₁ := mergeEntries_ok_char ys xs p zs₁ hby.1 hme₁ k
        have hch₂ := mergeEntries_ok_char xs ys p zs₂ hax.1 hme₂ k
        cases hlx : lookupKey xs k with
        | some v =>
          cases hly : lookupKey ys k with
          | some w =>
            obtain ⟨mvw, hmvw, hzvw⟩ :=
              mergeEntries_ok_sub ys xs p zs₁ hby.1 hme₁ k v w hlx hly
            obtain ⟨mwv, hmwv, hzwv⟩ :=
              mergeEntries_ok_sub xs ys p zs₂ hax.1 hme₂ k w v hly hlx
            have hu : u = mvw := by
              rw [hlz₁] at hzvw
              exact Option.some.inj hzvw
            refine ⟨mwv, hzwv, ?_⟩
            rw [hu]
            have hsv := sizeOf_lookupKey xs k v hlx
            have hsw := sizeOf_lookupKey ys k w hly
            exact ih v w (by omega)
              (wfv_dict_lookup xs k v ha hlx) (wfv_dict_lookup ys k w hb hly)
              (subPath p k) mvw mwv hmvw hmwv
          | none =>
            rw [hlx, hly] at hch₁ hch₂
            have hu : u = v := by
              rw [hlz₁] at hch₁
              cases hch₁
              rfl
            subst hu
            refine ⟨u, hch₂, pyEq_refl u (wfv_dict_lookup xs k u ha hlx)⟩
        | none =>
          cases hly : lookupKey ys k with
          | some w =>
            rw [hlx, hly] at hch₁ hch₂
            have hu : u = w := by
              rw [hlz₁] at hch₁
              cases hch₁
              rfl
            subst hu
            refine ⟨u, hch₂, pyEq_refl u (wfv_dict_lookup ys k u hb hly)⟩
          | none =>
            rw [hlx, hly] at hch₁
            rw [hlz₁] at hch₁
            cases hch₁
      · rw [keysSubsetB_iff]
        intro k hk
        rw [hkeys₁]
        rw [hkeys₂] at hk
        tauto
    · have hd2 := not_both_dict_of _ _ hd
      have hd2' : isDictV b = false ∨ isDictV a = false := hd2.symm
      obtain ⟨hpe, rfl⟩ := strict_merge_ok_nondict_inv _ _ p m₁ hd2 hok1
      obtain ⟨hpe', rfl⟩ := strict_merge_ok_nondict_inv _ _ p m₂ hd2' hok2
      exact hpe

theorem ne_dict_of_not_dict (a : Val) (h : isDictV a = false) :
    ∀ xs, a ≠ .dict xs := by
  intro xs heq
  subst heq
  simp [isDictV] at h

theorem strict_merge_assoc_aux :
    ∀ n a b c, sizeOf a + sizeOf b + sizeOf c ≤ n →
      wfvB a = true → wfvB b = true → wfvB c = true →
      ∀ p ab m₁ bc m₂,
        strict_merge a b p = .ok ab → strict_merge ab c p = .ok m₁ →
        strict_merge b c p = .ok bc → strict_merge a bc p = .ok m₂ →
        pyEq m₁ m₂ = true := by
  intro n
  induction n with
  | zero =>
    intro a b c h
    exfalso
    cases a <;> simp at h <;> omega
  | succ n ih =>
    intro a b c hsz ha hb hc p ab m₁ bc m₂ hab hm1 hbc hm2
    by_cases hda : isDictV a = true
    · by_cases hdb : isDictV b = true
      · by_cases hdc : isDictV c = true
        · -- all three are dictionaries
          obtain ⟨as, rfl⟩ := isDict_exists a hda
          obtain ⟨bs, rfl⟩ := isDict_exists b hdb
          obtain ⟨cs, rfl⟩ := isDict_exists c hdc
          obtain ⟨abs, habme, rfl⟩ := strict_merge_ok_dict_inv as bs p ab hab
          obtain ⟨m1s, hm1me, rfl⟩ := strict_merge_ok_dict_inv abs cs p m₁ hm1
          obtain ⟨bcs, hbcme, rfl⟩ := strict_merge_ok_dict_inv bs cs p bc hbc
          obtain ⟨m2s, hm2me, rfl⟩ := strict_merge_ok_dict_inv as bcs p m₂ hm2
          have hwas := (wfv_dict_iff as).mp ha
          have hwbs := (wfv_dict_iff bs).mp hb
          have hwcs := (wfv_dict_iff cs).mp hc
          have hwab : wfvB (Val.dict abs) = true :=
            strict_merge_wf_aux _ (Val.dict bs) le_rfl _ p _ ha hb hab
          have hwm1 : wfvB (Val.dict m1s) = true :=
            strict_merge_wf_aux _ (Val.dict cs) le_rfl _ p _ hwab hc hm1
          have hwbc : wfvB (Val.dict bcs) = true :=
            strict_merge_wf_aux _ (Val.dict cs) le_rfl _ p _ hb hc hbc
          have hwm2 : wfvB (Val.dict m2s) = true :=
            strict_merge_wf_aux _ (Val.dict bcs) le_rfl _ p _ ha hwbc hm2
          have hwabs := (wfv_dict_iff abs).mp hwab
          have hwm1s := (wfv_dict_iff m1s).mp hwm1
          have hwbcs := (wfv_dict_iff bcs).mp hwbc
          have hwm2s := (wfv_dict_iff m2s).mp hwm2
          have hkab := mergeEntries_ok_keys bs as p abs habme
          have hk1 := mergeEntries_ok_keys cs abs p m1s hm1me
          have hkbc := mergeEntries_ok_keys cs bs p bcs hbcme
          have hk2 := mergeEntries_ok_keys bcs as p m2s hm2me
          have hszas : sizeOf (Val.dict as) = 1 + sizeOf as := by simp
          have hszbs : sizeOf (Val.dict bs) = 1 + sizeOf bs := by simp
          have hszcs : sizeOf (Val.dict cs) = 1 + sizeOf cs := by simp
          rw [pyEq_dict_dict]
          simp only [Bool.and_eq_true]
          constructor
          · rw [pyEqEntries_iff]
            intro q hq
            obtain ⟨k, u⟩ := q
            have hlz₁ : lookupKey m1s k = some u :=
              lookupKey_of_mem_nodup m1s k u hwm1s.1 hq
            have chab := mergeEntries_ok_char bs as p abs hwbs.1 habme k
            have ch1 := mergeEntries_ok_char cs abs p m1s hwcs.1 hm1me k
            have chbc := mergeEntries_ok_char cs bs p bcs hwcs.1 hbcme k
            have ch2 := mergeEntries_ok_char bcs as p m2s hwbcs.1 hm2me k
            cases hla : lookupKey as k with
            | some va =>
              have hwva := wfv_dict_lookup as k va ha hla
              have hsva := sizeOf_lookupKey as k va hla
              cases hlb : lookupKey bs k with
              | some vb =>
                have hwvb := wfv_dict_lookup bs k vb hb hlb
                have hsvb := sizeOf_lookupKey bs k vb hlb
                obtain ⟨mab, hmab, hlab⟩ :=
                  mergeEntries_ok_sub bs as p abs hwbs.1 habme k va vb hla hlb
                have hwmab : wfvB mab = true :=
                  strict_merge_wf_aux _ vb le_rfl va _ mab hwva hwvb hmab
                cases hlc : lookupKey cs k with
                | some vc =>
                  have hwvc := wfv_dict_lookup cs k vc hc hlc
                  have hsvc := sizeOf_lookupKey cs k vc hlc
                  obtain ⟨mu, hmu, hlmu⟩ :=
                    mergeEntries_ok_sub cs abs p m1s hwcs.1 hm1me k mab vc hlab hlc
                  have hu : u = mu := by
                    rw [hlz₁] at hlmu
                    exact Option.some.inj hlmu
                  obtain ⟨mbc, hmbc, hlbc⟩ :=
                    mergeEntries_ok_sub cs bs p bcs hwcs.1 hbcme k vb vc hlb hlc
                  obtain ⟨mu₂, hmu₂, hlmu₂⟩ :=
                    mergeEntries_ok_sub bcs as p m2s hwbcs.1 hm2me k va mbc hla hlbc
                  refine ⟨mu₂, hlmu₂, ?_⟩
                  rw [hu]
                  exact ih va vb vc (by omega) hwva hwvb hwvc (subPath p k)
                    mab mu mbc mu₂ hmab hmu hmbc hmu₂
                | none =>
                  rw [hlab, hlc] at ch1
                  have hu : u = mab := by
                    rw [hlz₁] at ch1
                    exact Option.some.inj ch1
                  rw [hlb, hlc] at chbc
                  have hlbc : lookupKey bcs k = some vb := chbc
                  obtain ⟨mu₂, hmu₂, hlmu₂⟩ :=
                    mergeEntries_ok_sub bcs as p m2s hwbcs.1 hm2me k va vb hla hlbc
                  have hdet : mu₂ = mab := by
                    rw [hmab] at hmu₂
                    exact (Except.ok.inj hmu₂).symm
                  refine ⟨mu₂, hlmu₂, ?_⟩
                  rw [hu, hdet]
                  exact pyEq_refl mab hwmab
              | none =>
                rw [hla, hlb] at chab
                have hlab : lookupKey abs k = some va := chab
                cases hlc : lookupKey cs k with
                | some vc =>
                  have hwvc := wfv_dict_lookup cs k vc hc hlc
                  obtain ⟨mu, hmu, hlmu⟩ :=
                    mergeEntries_ok_sub cs abs p m1s hwcs.1 hm1me k va vc hlab hlc
                  have hu : u = mu := by
                    rw [hlz₁] at hlmu
                    exact Option.some.inj hlmu
                  rw [hlb, hlc] at chbc
                  have hlbc : lookupKey bcs k = some vc := chbc
                  obtain ⟨mu₂, hmu₂, hlmu₂⟩ :=
                    mergeEntries_ok_sub bcs as p m2s hwbcs.1 hm2me k va vc hla hlbc
                  have hdet : mu₂ = mu := by
                    rw [hmu] at hmu₂
                    exact (Except.ok.inj hmu₂).symm
                  refine ⟨mu₂, hlmu₂, ?_⟩
                  have hwmu : wfvB mu = true :=
                    strict_merge_wf_aux _ vc le_rfl va _ mu hwva hwvc hmu
                  rw [hu, hdet]
                  exact pyEq_refl mu hwmu
                | none =>
                  rw [hlab, hlc] at ch1
                  have hu : u = va := by
                    rw [hlz₁] at ch1
                    exact Option.some.inj ch1
                  rw [hlb, hlc] at chbc
                  have hlbc : lookupKey bcs k = none := chbc
                  rw [hla, hlbc] at ch2
                  have hlmu₂ : lookupKey m2s k = some va := ch2
                  refine ⟨va, hlmu₂, ?_⟩
                  rw [hu]
                  exact pyEq_refl va hwva
            | none =>
              cases hlb : lookupKey bs k with
              | some vb =>
                have hwvb := wfv_dict_lookup bs k vb hb hlb
                rw [hla, hlb] at chab
                have hlab : lookupKey abs k = some vb := chab
                cases hlc : lookupKey cs k with
                | some vc =>
                  have hwvc := wfv_dict_lookup cs k vc hc hlc
                  obtain ⟨mu, hmu, hlmu⟩ :=
                    mergeEntries_ok_sub cs abs p m1s hwcs.1 hm1me k vb vc hlab hlc
                  have hu : u = mu := by
                    rw [hlz₁] at hlmu
                    exact Option.some.inj hlmu
                  obtain ⟨mbc, hmbc, hlbc⟩ :=
                    mergeEntries_ok_sub cs bs p bcs hwcs.1 hbcme k vb vc hlb hlc
                  have hdet : mbc = mu := by
                    rw [hmu] at hmbc
                    exact (Except.ok.inj hmbc).symm
                  rw [hla, hlbc] at ch2
                  have hlmu₂ : lookupKey m2s k = some mbc := ch2
                  refine ⟨mbc, hlmu₂, ?_⟩
                  have hwmu : wfvB mu = true :=
                    strict_merge_wf_aux _ vc le_rfl vb _ mu hwvb hwvc hmu
                  rw [hu, hdet]
                  exact pyEq_refl mu hwmu
                | none =>
                  rw [hlab, hlc] at ch1
                  have hu : u = vb := by
                    rw [hlz₁] at ch1
                    exact Option.some.inj ch1
                  rw [hlb, hlc] at chbc
                  have hlbc : lookupKey bcs k = some vb := chbc
                  rw [hla, hlbc] at ch2
                  have hlmu₂ : lookupKey m2s k = some vb := ch2
                  refine ⟨vb, hlmu₂, ?_⟩
                  rw [hu]
                  exact pyEq_refl vb hwvb
              | none =>
                rw [hla, hlb] at chab
                have hlab : lookupKey abs k = none := chab
                cases hlc : lookupKey cs k with
                | some vc =>
                  have hwvc := wfv_dict_lookup cs k vc hc hlc
                  rw [hlab, hlc] at ch1
                  have hu : u = vc := by
                    rw [hlz₁] at ch1
                    exact Option.some.inj ch1
                  rw [hlb, hlc] at chbc
                  have hlbc : lookupKey bcs k = some vc := chbc
                  rw [hla, hlbc] at ch2
                  have hlmu₂ : lookupKey m2s k = some vc := ch2
                  refine ⟨vc, hlmu₂, ?_⟩
                  rw [hu]
                  exact pyEq_refl vc hwvc
                | none =>
                  rw [hlab, hlc] at ch1
                  rw [hlz₁] at ch1
                  cases ch1
          · rw [keysSubsetB_iff]
            intro k hk
            rw [hk1, hkab]
            rw [hk2, hkbc] at hk
            tauto
        · -- c is not a dictionary: contradiction with merging dict ab into it
          obtain ⟨as, rfl⟩ := isDict_exists a hda
          obtain ⟨bs, rfl⟩ := isDict_exists b hdb
          obtain ⟨abs, habme, rfl⟩ := strict_merge_ok_dict_inv as bs p ab hab
          have hcnd : isDictV c = false := Bool.eq_false_iff.mpr hdc
          obtain ⟨hpe, rfl⟩ :=
            strict_merge_ok_nondict_inv _ c p m₁ (Or.inr hcnd) hm1
          rw [pyEq_dict_not_dict abs c (ne_dict_of_not_dict c hcnd)] at hpe
          cases hpe
      · -- a is a dictionary, b is not: the first merge cannot succeed
        have hbnd : isDictV b = false := Bool.eq_false_iff.mpr hdb
        obtain ⟨hpe, habe⟩ := strict_merge_ok_nondict_inv a b p ab (Or.inr hbnd) hab
        obtain ⟨as, hase⟩ := isDict_exists a hda
        rw [hase, pyEq_dict_not_dict as b (ne_dict_of_not_dict b hbnd)] at hpe
        cases hpe
    · -- a is not a dictionary: every value collapses to a
      have hand : isDictV a = false := Bool.eq_false_iff.mpr hda
      obtain ⟨hpab, habe⟩ := strict_merge_ok_nondict_inv a b p ab (Or.inl hand) hab
      have hbnd : isDictV b = false := by
        by_cases hdb : isDictV b = true
        · obtain ⟨bs, hbse⟩ := isDict_exists b hdb
          rw [hbse, pyEq_not_dict_dict a bs (ne_dict_of_not_dict a hand)] at hpab
          cases hpab
        · exact Bool.eq_false_iff.mpr hdb
      rw [habe] at hm1
      obtain ⟨hpbc, hbce⟩ := strict_merge_ok_nondict_inv b c p bc (Or.inl hbnd) hbc
      rw [hbce] at hm2
      obtain ⟨hpac, hm1e⟩ := strict_merge_ok_nondict_inv a c p m₁ (Or.inl hand) hm1
      obtain ⟨hpab2, hm2e⟩ := strict_merge_ok_nondict_inv a b p m₂ (Or.inl hand) hm2
      rw [hm1e, hm2e]
      exact pyEq_refl a ha

/-! ## Conflicting field paths -/

/-- Navigate a value along a list of dictionary keys. -/
def getAtPath : List String → Val → Option Val
  | [], v => some v
  | k :: rest, v =>
    match v with
    | .dict xs =>
      match lookupKey xs k with
      | some w => getAtPath rest w
      | none => none
    | _ => none

/-- Render a field path the way `strict_merge` accumulates it. -/
def extendPath : String → List String → String
  | p, [] => p
  | p, k :: rest => extendPath (subPath p k) rest

/-- Two documents conflict at a field path when both define it, at least
one of the two values is not a dictionary, and the values differ. -/
def ConflictAt : List String → Val → Val → Prop
  | [], a, b => (isDictV a = false ∨ isDictV b = false) ∧ pyEq a b = false
  | k :: rest, a, b =>
    ∃ xs ys v w, a = .dict xs ∧ b = .dict ys ∧
      lookupKey xs k = some v ∧ lookupKey ys k = some w ∧ ConflictAt rest v w

theorem strict_merge_conflict_error :
    ∀ ps a b, wfvB a = true → wfvB b = true → ConflictAt ps a b →
      ∀ p m, strict_merge a b p = .ok m → False := by
  intro ps
  induction ps with
  | nil =>
    intro a b _ _ hc p m hok
    rw [ConflictAt] at hc
    obtain ⟨hpe, rfl⟩ := strict_merge_ok_nondict_inv a b p m hc.1 hok
    rw [hc.2] at hpe
    cases hpe
  | cons k rest ih =>
    intro a b ha hb hc p m hok
    rw [ConflictAt] at hc
    obtain ⟨xs, ys, v, w, rfl, rfl, hlv, hlw, hcr⟩ := hc
    obtain ⟨zs, hme, rfl⟩ := strict_merge_ok_dict_inv xs ys p m hok
    obtain ⟨mm, hmm, _⟩ :=
      mergeEntries_ok_sub ys xs p zs ((wfv_dict_iff ys).mp hb).1 hme k v w hlv hlw
    exact ih v w (wfv_dict_lookup xs k v ha hlv) (wfv_dict_lookup ys k w hb hlw)
      hcr (subPath p k) mm hmm

theorem mergeEntries_error_sub (ys : List (String × Val)) :
    ∀ xs p e, nodupKeys ys = true → mergeEntries xs ys p = .error e →
      ∃ k v w, lookupKey xs k = some v ∧ lookupKey ys k = some w ∧
        strict_merge v w (subPath p k) = .error e := by
  induction ys with
  | nil =>
    intro xs p e _ h
    rw [mergeEntries_nil] at h
    cases h
  | cons q rest ih =>
    intro xs p e hnd h
    obtain ⟨k0, w0⟩ := q
    simp only [nodupKeys, Bool.and_eq_true, Bool.not_eq_true'] at hnd
    have hrest0 : lookupKey rest k0 = none :=
      Option.not_isSome_iff_eq_none.mp (by simp [hnd.1])
    cases hl : lookupKey xs k0 with
    | none =>
      rw [mergeEntries_cons_absent xs k0 w0 rest p hl] at h
      obtain ⟨k, v, w, hxv, hrw, hmrg⟩ := ih (xs ++ [(k0, w0)]) p e hnd.2 h
      have hkne : k0 ≠ k := by
        intro hh
        subst hh
        rw [hrest0] at hrw
        cases hrw
      rw [lookupKey_append, lookupKey_cons_ne k0 k w0 [] hkne] at hxv
      simp only [lookupKey, Option.or_none] at hxv
      refine ⟨k, v, w, hxv, ?_, hmrg⟩
      rw [lookupKey_cons_ne k0 k w0 rest hkne]
      exact hrw
    | some v =>
      cases hm : strict_merge v w0 (subPath p k0) with
      | ok mm =>
        rw [mergeEntries_cons_present_ok xs k0 w0 v mm rest p hl hm] at h
        obtain ⟨k, v', w, hxv, hrw, hmrg⟩ := ih (setKey xs k0 mm) p e hnd.2 h
        have hkne : k0 ≠ k := by
          intro hh
          subst hh
          rw [hrest0] at hrw
          cases hrw
        rw [lookupKey_setKey_ne xs k0 k mm (fun hh => hkne hh.symm)] at hxv
        refine ⟨k, v', w, hxv, ?_, hmrg⟩
        rw [lookupKey_cons_ne k0 k w0 rest hkne]
        exact hrw
      | error e0 =>
        rw [mergeEntries_cons_present_error xs k0 w0 v e0 rest p hl hm] at h
        cases h
        exact ⟨k0, v, w0, hl, lookupKey_cons_self k0 w0 rest, hm⟩

theorem strict_merge_error_conflict_aux :
    ∀ n b, sizeOf b ≤ n → ∀ a p e, wfvB a = true → wfvB b = true →
      strict_merge a b p = .error e →
      ∃ ps, ConflictAt ps a b ∧ getAtPath ps a = some e.left ∧
        getAtPath ps b = some e.right ∧ e.path = extendPath p ps := by
  intro n
  induction n with
  | zero =>
    intro b h
    exfalso
    cases b <;> simp at h <;> omega
  | succ n ih =>
    intro b hsz a p e ha hb herr
    by_cases hd : isDictV a = true ∧ isDictV b = true
    · obtain ⟨xs, rfl⟩ := isDict_exists a hd.1
      obtain ⟨ys, rfl⟩ := isDict_exists b hd.2
      rw [strict_merge_dict_dict] at herr
      cases hme : mergeEntries xs ys p with
      | ok zs => rw [hme] at herr; cases herr
      | error e0 =>
        rw [hme] at herr
        cases herr
        obtain ⟨k, v, w, hxv, hyw, hmrg⟩ :=
          mergeEntries_error_sub ys xs p e ((wfv_dict_iff ys).mp hb).1 hme
        have hsw : sizeOf w ≤ n := by
          have h1 := sizeOf_lookupKey ys k w hyw
          have h2 : sizeOf (Val.dict ys) = 1 + sizeOf ys := by simp
          omega
        obtain ⟨ps, hcps, hgl, hgr, hpath⟩ :=
          ih w hsw v (subPath p k) e (wfv_dict_lookup xs k v ha hxv)
            (wfv_dict_lookup ys k w hb hyw) hmrg
        refine ⟨k :: ps, ?_, ?_, ?_, ?_⟩
        · rw [ConflictAt]
          exact ⟨xs, ys, v, w, rfl, rfl, hxv, hyw, hcps⟩
        · rw [getAtPath, hxv]
          exact hgl
        · rw [getAtPath, hyw]
          exact hgr
        · rw [extendPath]
          exact hpath
    · have hd2 := not_both_dict_of a b hd
      rw [strict_merge_not_both_dict a b p hd2] at herr
      by_cases hpe : pyEq a b = true
      · rw [if_pos hpe] at herr
        cases herr
      · rw [if_neg hpe] at herr
        cases herr
        refine ⟨[], ?_, ?_, ?_, rfl⟩
        · rw [ConflictAt]
          exact ⟨hd2, Bool.eq_false_iff.mpr hpe⟩
        · rw [getAtPath]
        · rw [getAtPath]

/-- C2: `strict_merge(a, b)`, for inputs that are both mappings, merges
key-wise and recursively: a key absent in one side is adopted from the
other; when the same field path holds two non-mapping values that are not
exactly equal, the merge fails with a conflict error that identifies that
exact field path, and conflicting scalar/array values are never silently
overwritten. -/
theorem strict_merge_conflict_contract (a b : Val)
    (ha : wfvB a = true) (hb : wfvB b = true) :
    (∀ xs ys m, a = Val.dict xs → b = Val.dict ys →
      strict_merge a b "" = .ok m →
      ∃ zs, m = Val.dict zs ∧ ∀ k,
        lookupKey zs k =
          match lookupKey xs k, lookupKey ys k with
          | some v, some w => (strict_merge v w (subPath "" k)).toOption
          | some v, none => some v
          | none, some w => some w
          | none, none => none)
    ∧ (∀ ps, ConflictAt ps a b → ∃ e, strict_merge a b "" = .error e)
    ∧ (∀ e, strict_merge a b "" = .error e →
        ∃ ps, ConflictAt ps a b ∧ getAtPath ps a = some e.left ∧
          getAtPath ps b = some e.right ∧ e.path = extendPath "" ps) := by
  refine ⟨?_, ?_, ?_⟩
  · rintro xs ys m rfl rfl hok
    obtain ⟨zs, hme, rfl⟩ := strict_merge_ok_dict_inv xs ys "" m hok
    exact ⟨zs, rfl, mergeEntries_ok_char ys xs "" zs ((wfv_dict_iff ys).mp hb).1 hme⟩
  · intro ps hc
    cases herr : strict_merge a b "" with
    | ok m => exact (strict_merge_conflict_error ps a b ha hb hc "" m herr).elim
    | error e => exact ⟨e, rfl⟩
  · intro e herr
    exact strict_merge_error_conflict_aux (sizeOf b) b le_rfl a "" e ha hb herr

/-- Witness for C2 at concrete documents conflicting at path `n.y`. -/
theorem strict_merge_conflict_contract_witness :
    (wfvB (Val.dict [("x", Val.atom "1"), ("n", Val.dict [("y", Val.atom "2")])]) = true
      ∧ wfvB (Val.dict [("n", Val.dict [("y", Val.atom "3")]), ("z", Val.atom "4")]) = true
      ∧ ConflictAt ["n", "y"]
          (Val.dict [("x", Val.atom "1"), ("n", Val.dict [("y", Val.atom "2")])])
          (Val.dict [("n", Val.dict [("y", Val.atom "3")]), ("z", Val.atom "4")]))
    ∧ (∃ e, strict_merge
        (Val.dict [("x", Val.atom "1"), ("n", Val.dict [("y", Val.atom "2")])])
        (Val.dict [("n", Val.dict [("y", Val.atom "3")]), ("z", Val.atom "4")]) "" = .error e) := by
  have hwa : wfvB (Val.dict [("x", Val.atom "1"), ("n", Val.dict [("y", Val.atom "2")])]) = true := by
    simp [wfvB, wfvEntries, nodupKeys, lookupKey]
  have hwb : wfvB (Val.dict [("n", Val.dict [("y", Val.atom "3")]), ("z", Val.atom "4")]) = true := by
    simp [wfvB, wfvEntries, nodupKeys, lookupKey]
  have hconf : ConflictAt ["n", "y"]
      (Val.dict [("x", Val.atom "1"), ("n", Val.dict [("y", Val.atom "2")])])
      (Val.dict [("n", Val.dict [("y", Val.atom "3")]), ("z", Val.atom "4")]) := by
    rw [ConflictAt]
    refine ⟨[("x", Val.atom "1"), ("n", Val.dict [("y", Val.atom "2")])],
      [("n", Val.dict [("y", Val.atom "3")]), ("z", Val.atom "4")],
      Val.dict [("y", Val.atom "2")], Val.dict [("y", Val.atom "3")],
      rfl, rfl, ?_, ?_, ?_⟩
    · simp [lookupKey]
    · simp [lookupKey]
    · rw [ConflictAt]
      refine ⟨[("y", Val.atom "2")], [("y", Val.atom "3")],
        Val.atom "2", Val.atom "3", rfl, rfl, ?_, ?_, ?_⟩
      · simp [lookupKey]
      · simp [lookupKey]
      · rw [ConflictAt]
        exact ⟨Or.inl rfl, by simp [pyEq]⟩
  exact ⟨⟨hwa, hwb, hconf⟩,
    (strict_merge_conflict_contract _ _ hwa hwb).2.1 ["n", "y"] hconf⟩

/-- C3: on conflict-free inputs, `strict_merge` is commutative and
associative (the results are equal as Python mappings), and merging a
document with itself returns it unchanged. -/
theorem strict_merge_algebra (a b c : Val)
    (ha : wfvB a = true) (hb : wfvB b = true) (hc : wfvB c = true) :
    (∀ m₁ m₂, strict_merge a b "" = .ok m₁ → strict_merge b a "" = .ok m₂ →
      pyEq m₁ m₂ = true)
    ∧ (∀ ab m₁ bc m₂, strict_merge a b "" = .ok ab → strict_merge ab c "" = .ok m₁ →
        strict_merge b c "" = .ok bc → strict_merge a bc "" = .ok m₂ →
        pyEq m₁ m₂ = true)
    ∧ strict_merge a a "" = .ok a := by
  refine ⟨?_, ?_, ?_⟩
  · intro m₁ m₂ h1 h2
    exact strict_merge_comm_aux (sizeOf a + sizeOf b) a b le_rfl ha hb "" m₁ m₂ h1 h2
  · intro ab m₁ bc m₂ h1 h2 h3 h4
    exact strict_merge_assoc_aux (sizeOf a + sizeOf b + sizeOf c) a b c le_rfl
      ha hb hc "" ab m₁ bc m₂ h1 h2 h3 h4
  · exact strict_merge_self_aux (sizeOf a) a le_rfl ha ""

/-- Witness for C3 at three concrete conflict-free documents. -/
theorem strict_merge_algebra_witness :
    pyEq (Val.dict [("x", Val.atom "1"), ("y", Val.atom "2")])
      (Val.dict [("y", Val.atom "2"), ("x", Val.atom "1")]) = true
    ∧ pyEq (Val.dict [("x", Val.atom "1"), ("y", Val.atom "2"), ("z", Val.atom "3")])
      (Val.dict [("x", Val.atom "1"), ("y", Val.atom "2"), ("z", Val.atom "3")]) = true
    ∧ strict_merge (Val.dict [("x", Val.atom "1")]) (Val.dict [("x", Val.atom "1")]) ""
        = .ok (Val.dict [("x", Val.atom "1")]) := by
  have h := strict_merge_algebra
    (Val.dict [("x", Val.atom "1")]) (Val.dict [("y", Val.atom "2")])
    (Val.dict [("z", Val.atom "3")])
    (by simp [wfvB, wfvEntries, nodupKeys, lookupKey])
    (by simp [wfvB, wfvEntries, nodupKeys, lookupKey])
    (by simp [wfvB, wfvEntries, nodupKeys, lookupKey])
  refine ⟨?_, ?_, h.2.2⟩
  · exact h.1 (Val.dict [("x", Val.atom "1"), ("y", Val.atom "2")])
      (Val.dict [("y", Val.atom "2"), ("x", Val.atom "1")])
      (by simp [strict_merge, mergeEntries, lookupKey])
      (by simp [strict_merge, mergeEntries, lookupKey])
  · exact h.2.1 (Val.dict [("x", Val.atom "1"), ("y", Val.atom "2")])
      (Val.dict [("x", Val.atom "1"), ("y", Val.atom "2"), ("z", Val.atom "3")])
      (Val.dict [("y", Val.atom "2"), ("z", Val.atom "3")])
      (Val.dict [("x", Val.atom "1"), ("y", Val.atom "2"), ("z", Val.atom "3")])
      (by simp [strict_merge, mergeEntries, lookupKey])
      (by simp [strict_merge, mergeEntries, lookupKey])
      (by simp [strict_merge, mergeEntries, lookupKey])
      (by simp [strict_merge, mergeEntries, lookupKey])

/-! ## Timestamp reconciliation (`earliest_if_within_two_hours`)

The merge script parses ISO-8601 timestamps after replacing `Z` with
`+00:00`, sorts the aware datetimes, checks the earliest-to-latest span
against two hours and prints the earliest back, replacing `+00:00` with
`Z` again.  The parser models `datetime.fromisoformat` on the fixed-width
`YYYY-MM-DDTHH:MM:SS+HH:MM` form that the replaced repository timestamps
take. -/

/-- Python `str.replace` on character lists: replace every
non-overlapping occurrence of `sub`, scanning left to right.  The fuel
argument starts at the length of the scanned list and bounds the scan;
every step consumes at least one character, so it never runs out. -/
def replaceFuel (sub repl : List Char) : Nat → List Char → List Char
  | 0, s => s
  | fuel + 1, s =>
    match s with
    | [] => []
    | c :: rest =>
      if sub ≠ [] ∧ sub.isPrefixOf (c :: rest) then
        repl ++ replaceFuel sub repl fuel ((c :: rest).drop sub.length)
      else
        c :: replaceFuel sub repl fuel rest

/-- Python `str.replace` on character lists. -/
def replaceAllL (sub repl s : List Char) : List Char :=
  replaceFuel sub repl s.length s

/-- Python `s.replace(sub, repl)` on strings. -/
def replaceAllStr (s sub repl : String) : String :=
  String.mk (replaceAllL sub.toList repl.toList s.toList)

/-- An aware Python `datetime` as produced by `fromisoformat`: calendar
fields plus a UTC offset in minutes. -/
structure PyDateTime where
  year : Nat
  month : Nat
  day : Nat
  hour : Nat
  minute : Nat
  second : Nat
  offMin : Int
deriving DecidableEq

def digitVal (c : Char) : Option Nat :=
  if c.isDigit then some (c.toNat - 48) else none

def isLeap (y : Nat) : Bool :=
  y % 4 == 0 && (y % 100 != 0 || y % 400 == 0)

def daysInMonth (y m : Nat) : Nat :=
  if m = 2 then (if isLeap y then 29 else 28)
  else if m = 4 ∨ m = 6 ∨ m = 9 ∨ m = 11 then 30
  else 31

/-- Two decimal digits. -/
def num2 (a b : Char) : Option Nat := do
  let x ← digitVal a
  let y ← digitVal b
  pure (x * 10 + y)

/-- Four decimal digits. -/
def num4 (a b c d : Char) : Option Nat := do
  let x ← num2 a b
  let y ← num2 c d
  pure (x * 100 + y)

/-- Model of `datetime.fromisoformat` on `YYYY-MM-DDTHH:MM:SS+HH:MM`
(the shape of the repository timestamps after `Z` replacement); any other
shape raises, modelled as `none`. -/
def parseIsoAware (s : String) : Option PyDateTime :=
  let cs := s.toList
  let c := fun i => cs.getD i ' '
  if cs.length = 25 ∧ c 4 = '-' ∧ c 7 = '-' ∧ c 10 = 'T' ∧
      c 13 = ':' ∧ c 16 = ':' ∧ c 22 = ':' then do
    let year ← num4 (c 0) (c 1) (c 2) (c 3)
    let month ← num2 (c 5) (c 6)
    let day ← num2 (c 8) (c 9)
    let hour ← num2 (c 11) (c 12)
    let minute ← num2 (c 14) (c 15)
    let second ← num2 (c 17) (c 18)
    let offH ← num2 (c 20) (c 21)
    let offM ← num2 (c 23) (c 24)
    if 1 ≤ year ∧ 1 ≤ month ∧ month ≤ 12 ∧ 1 ≤ day ∧ day ≤ daysInMonth year month ∧
        hour ≤ 23 ∧ minute ≤ 59 ∧ second ≤ 59 ∧ offH ≤ 23 ∧ offM ≤ 59 then
      match c 19 with
      | '+' => some ⟨year, month, day, hour, minute, second, (offH * 60 + offM : Nat)⟩
      | '-' => some ⟨year, month, day, hour, minute, second, -((offH * 60 + offM : Nat) : Int)⟩
      | _ => none
    else
      none
  else none

/-- Days since 1970-01-01 of a proleptic-Gregorian civil date (for the
years accepted by the parser). -/
def daysFromCivil (y m d : Nat) : Int :=
  let y' : Int := if m ≤ 2 then (y : Int) - 1 else (y : Int)
  let era : Int := y' / 400
  let yoe : Int := y' - era * 400
  let mp : Int := if m > 2 then (m : Int) - 3 else (m : Int) + 9
  let doy : Int := (153 * mp + 2) / 5 + (d : Int) - 1
  let doe : Int := yoe * 365 + yoe / 4 - yoe / 100 + doy
  era * 146097 + doe - 719468

/-- The instant of an aware datetime, in seconds since the epoch; aware
datetimes compare and subtract by this value. -/
def toEpochSeconds (t : PyDateTime) : Int :=
  daysFromCivil t.year t.month t.day * 86400 +
    (t.hour : Int) * 3600 + (t.minute : Int) * 60 + (t.second : Int) - t.offMin * 60

/-- Zero-padded decimal rendering. -/
def padNum (w n : Nat) : String :=
  let s := toString n
  String.mk (List.replicate (w - s.length) '0') ++ s

/-- Model of `datetime.isoformat` on a second-resolution aware value. -/
def isoformatAware (t : PyDateTime) : String :=
  padNum 4 t.year ++ "-" ++ padNum 2 t.month ++ "-" ++ padNum 2 t.day ++ "T" ++
  padNum 2 t.hour ++ ":" ++ padNum 2 t.minute ++ ":" ++ padNum 2 t.second ++
  (if t.offMin < 0 then "-" else "+") ++
  padNum 2 (t.offMin.natAbs / 60) ++ ":" ++ padNum 2 (t.offMin.natAbs % 60)

/-- The list comprehension of `earliest_if_within_two_hours`: parse each
timestamp in order, raising on the first invalid one. -/
def parseTimes : List String → Except String (List PyDateTime)
  | [] => .ok []
  | t :: rest =>
    match parseIsoAware (replaceAllStr t "Z" "+00:00") with
    | none => .error "Invalid isoformat string"
    | some dt =>
      match parseTimes rest with
      | .ok dts => .ok (dt :: dts)
      | .error e => .error e

/-- One step of the stable ascending sort used by `list.sort()`. -/
def insertTime (x : PyDateTime) : List PyDateTime → List PyDateTime
  | [] => [x]
  | y :: rest =>
    if toEpochSeconds x < toEpochSeconds y then x :: y :: rest
    else y :: insertTime x rest

/-- Stable ascending sort of aware datetimes (`times.sort()`). -/
def sortTimes (l : List PyDateTime) : List PyDateTime :=
  l.foldl (fun acc x => insertTime x acc) []

/-- Model of `earliest_if_within_two_hours` from
`scripts/merge_data_files.py`. -/
def earliest_if_within_two_hours (timestamps : List String) : Except String String :=
  if timestamps.isEmpty then .error "No timestamps provided"
  else
    match parseTimes timestamps with
    | .error e => .error e
    | .ok times =>
      match sortTimes times with
      | [] => .error "No timestamps provided"
      | earliest :: restSorted =>
        let latest := restSorted.getLastD earliest
        if toEpochSeconds latest - toEpochSeconds earliest > 2 * 3600 then
          .error "Timestamps are not within 2 hours of each other"
        else
          .ok (replaceAllStr (isoformatAware earliest) "+00:00" "Z")

theorem insertTime_mem (x : PyDateTime) (l : List PyDateTime) (y : PyDateTime) :
    y ∈ insertTime x l ↔ y = x ∨ y ∈ l := by
  induction l with
  | nil => simp [insertTime]
  | cons z rest ih =>
    rw [insertTime]
    by_cases h : toEpochSeconds x < toEpochSeconds z
    · rw [if_pos h]
      simp
    · rw [if_neg h]
      simp [ih]
      tauto

theorem insertTime_pairwise (x : PyDateTime) (l : List PyDateTime)
    (hl : List.Pairwise (fun a b => toEpochSeconds a ≤ toEpochSeconds b) l) :
    List.Pairwise (fun a b => toEpochSeconds a ≤ toEpochSeconds b) (insertTime x l) := by
  induction l with
  | nil => simp [insertTime]
  | cons z rest ih =>
    rw [List.pairwise_cons] at hl
    rw [insertTime]
    by_cases h : toEpochSeconds x < toEpochSeconds z
    · rw [if_pos h, List.pairwise_cons]
      constructor
      · intro y hy
        rcases List.mem_cons.mp hy with rfl | hy
        · exact le_of_lt h
        · have := hl.1 y hy
          omega
      · rw [List.pairwise_cons]
        exact hl
    · rw [if_neg h, List.pairwise_cons]
      constructor
      · intro y hy
        rw [insertTime_mem] at hy
        rcases hy with rfl | hy
        · omega
        · exact hl.1 y hy
      · exact ih hl.2

theorem sortTimes_go_mem (l : List PyDateTime) :
    ∀ acc y, (y ∈ l.foldl (fun acc x => insertTime x acc) acc ↔ y ∈ acc ∨ y ∈ l) := by
  induction l with
  | nil => simp
  | cons x rest ih =>
    intro acc y
    rw [List.foldl_cons, ih, insertTime_mem]
    simp
    tauto

theorem sortTimes_mem (l : List PyDateTime) (y : PyDateTime) :
    y ∈ sortTimes l ↔ y ∈ l := by
  rw [sortTimes, sortTimes_go_mem]
  simp

theorem sortTimes_go_pairwise (l : List PyDateTime) :
    ∀ acc, List.Pairwise (fun a b => toEpochSeconds a ≤ toEpochSeconds b) acc →
      List.Pairwise (fun a b => toEpochSeconds a ≤ toEpochSeconds b)
        (l.foldl (fun acc x => insertTime x acc) acc) := by
  induction l with
  | nil => intro acc h; simpa using h
  | cons x rest ih =>
    intro acc h
    rw [List.foldl_cons]
    exact ih (insertTime x acc) (insertTime_pairwise x acc h)

theorem sortTimes_pairwise (l : List PyDateTime) :
    List.Pairwise (fun a b => toEpochSeconds a ≤ toEpochSeconds b) (sortTimes l) := by
  rw [sortTimes]
  exact sortTimes_go_pairwise l [] (by simp)

theorem getLastD_mem (l : List PyDateTime) (x : PyDateTime) : l.getLastD x ∈ x :: l := by
  induction l generalizing x with
  | nil => simp [List.getLastD]
  | cons z rest ih =>
    rw [List.getLastD_cons]
    have h := ih z
    rw [List.mem_cons] at h
    rcases h with h | h
    · rw [h]
      exact List.mem_cons_of_mem _ (List.mem_cons_self _ _)
    · exact List.mem_cons_of_mem _ (List.mem_cons_of_mem _ h)

theorem pairwise_getLastD_ge (rest : List PyDateTime) :
    ∀ x, List.Pairwise (fun a b => toEpochSeconds a ≤ toEpochSeconds b) (x :: rest) →
      ∀ y ∈ x :: rest, toEpochSeconds y ≤ toEpochSeconds (rest.getLastD x) := by
  induction rest with
  | nil =>
    intro x _ y hy
    rcases List.mem_cons.mp hy with rfl | hy
    · simp [List.getLastD]
    · simp at hy
  | cons z rest' ih =>
    intro x hp y hy
    rw [List.pairwise_cons] at hp
    rw [List.getLastD_cons]
    rcases List.mem_cons.mp hy with rfl | hy
    · have h1 : toEpochSeconds y ≤ toEpochSeconds z := hp.1 z (List.mem_cons_self _ _)
      have h2 := ih z hp.2 z (List.mem_cons_self _ _)
      omega
    · exact ih z hp.2 y hy

theorem parseTimes_ne_nil (ts : List String) (dts : List PyDateTime)
    (hne : ts ≠ []) (hp : parseTimes ts = .ok dts) : dts ≠ [] := by
  cases ts with
  | nil => exact absurd rfl hne
  | cons t rest =>
    rw [parseTimes] at hp
    cases hpi : parseIsoAware (replaceAllStr t "Z" "+00:00") with
    | none => rw [hpi] at hp; cases hp
    | some dt =>
      rw [hpi] at hp
      cases hpr : parseTimes rest with
      | ok dts' =>
        rw [hpr] at hp
        cases hp
        simp
      | error e => rw [hpr] at hp; cases hp

/-- C4: `reconcile_timestamps` parses every input timestamp, fails when
the span between the earliest and the latest exceeds 2 hours, and
otherwise returns the earliest timestamp as a string in the same textual
convention as the inputs; in particular, for the two listed timestamps it
returns `2024-01-01T00:00:00Z`, and adding a third timestamp 3 hours
later makes the call fail. -/
theorem earliest_if_within_two_hours_contract (ts : List String)
    (dts : List PyDateTime) (hne : ts ≠ []) (hp : parseTimes ts = .ok dts) :
    ((∃ d1 ∈ dts, ∃ d2 ∈ dts, toEpochSeconds d2 - toEpochSeconds d1 > 2 * 3600) →
      ∃ msg, earliest_if_within_two_hours ts = .error msg)
    ∧ ((∀ d1 ∈ dts, ∀ d2 ∈ dts, toEpochSeconds d2 - toEpochSeconds d1 ≤ 2 * 3600) →
      ∃ dtE, dtE ∈ dts ∧ (∀ d ∈ dts, toEpochSeconds dtE ≤ toEpochSeconds d) ∧
        earliest_if_within_two_hours ts =
          .ok (replaceAllStr (isoformatAware dtE) "+00:00" "Z"))
    ∧ earliest_if_within_two_hours ["2024-01-01T00:00:00Z", "2024-01-01T01:00:00Z"]
        = .ok "2024-01-01T00:00:00Z"
    ∧ (∃ msg, earliest_if_within_two_hours
        ["2024-01-01T00:00:00Z", "2024-01-01T01:00:00Z", "2024-01-01T04:00:00Z"]
          = .error msg) := by
  have hemp : ts.isEmpty = false := by
    cases ts with
    | nil => exact absurd rfl hne
    | cons t rest => rfl
  have hdne : dts ≠ [] := parseTimes_ne_nil ts dts hne hp
  have hsne : sortTimes dts ≠ [] := by
    intro hcon
    cases hd : dts with
    | nil => exact hdne hd
    | cons d rest =>
      have hmem : d ∈ sortTimes dts := by
        rw [sortTimes_mem, hd]
        exact List.mem_cons_self _ _
      rw [hcon] at hmem
      simp at hmem
  obtain ⟨earliest, restSorted, hsort⟩ :
      ∃ e r, sortTimes dts = e :: r := by
    cases hs : sortTimes dts with
    | nil => exact absurd hs hsne
    | cons e r => exact ⟨e, r, rfl⟩
  have hpw := sortTimes_pairwise dts
  rw [hsort] at hpw
  have hmin : ∀ d ∈ dts, toEpochSeconds earliest ≤ toEpochSeconds d := by
    intro d hd
    have hd' : d ∈ earliest :: restSorted := by
      rw [← hsort, sortTimes_mem]
      exact hd
    rcases List.mem_cons.mp hd' with rfl | hd'
    · omega
    · rw [List.pairwise_cons] at hpw
      exact hpw.1 d hd'
  have hmax : ∀ d ∈ dts, toEpochSeconds d ≤
      toEpochSeconds (restSorted.getLastD earliest) := by
    intro d hd
    have hd' : d ∈ earliest :: restSorted := by
      rw [← hsort, sortTimes_mem]
      exact hd
    exact pairwise_getLastD_ge restSorted earliest hpw d hd'
  have hearliest_mem : earliest ∈ dts := by
    rw [← sortTimes_mem, hsort]
    simp
  have hlatest_mem : restSorted.getLastD earliest ∈ dts := by
    rw [← sortTimes_mem, hsort]
    exact getLastD_mem restSorted earliest
  have hunfold : earliest_if_within_two_hours ts =
      (if toEpochSeconds (restSorted.getLastD earliest) - toEpochSeconds earliest
          > 2 * 3600 then
        .error "Timestamps are not within 2 hours of each other"
      else
        .ok (replaceAllStr (isoformatAware earliest) "+00:00" "Z")) := by
    simp only [earliest_if_within_two_hours, hemp, Bool.false_eq_true, if_false, hp, hsort]
  refine ⟨?_, ?_, by rfl, ⟨"Timestamps are not within 2 hours of each other", by rfl⟩⟩
  · rintro ⟨d1, hd1, d2, hd2, hgt⟩
    refine ⟨"Timestamps are not within 2 hours of each other", ?_⟩
    have h1 := hmin d1 hd1
    have h2 := hmax d2 hd2
    have hcond : toEpochSeconds (restSorted.getLastD earliest) - toEpochSeconds earliest
        > 2 * 3600 := by omega
    rw [hunfold, if_pos hcond]
  · intro hall
    refine ⟨earliest, hearliest_mem, hmin, ?_⟩
    have hspan := hall earliest hearliest_mem (restSorted.getLastD earliest) hlatest_mem
    have hcond : ¬ (toEpochSeconds (restSorted.getLastD earliest) - toEpochSeconds earliest
        > 2 * 3600) := by omega
    rw [hunfold, if_neg hcond]

/-- Witness for C4 at the two concrete example timestamps. -/
theorem earliest_if_within_two_hours_contract_witness :
    (["2024-01-01T00:00:00Z", "2024-01-01T01:00:00Z"] ≠ ([] : List String)
      ∧ parseTimes ["2024-01-01T00:00:00Z", "2024-01-01T01:00:00Z"]
          = .ok [⟨2024, 1, 1, 0, 0, 0, 0⟩, ⟨2024, 1, 1, 1, 0, 0, 0⟩])
    ∧ earliest_if_within_two_hours ["2024-01-01T00:00:00Z", "2024-01-01T01:00:00Z"]
        = .ok "2024-01-01T00:00:00Z" := by
  refine ⟨⟨by simp, by rfl⟩, ?_⟩
  exact (earliest_if_within_two_hours_contract
    ["2024-01-01T00:00:00Z", "2024-01-01T01:00:00Z"]
    [⟨2024, 1, 1, 0, 0, 0, 0⟩, ⟨2024, 1, 1, 1, 0, 0, 0⟩]
    (by simp) (by rfl)).2.2.1

/-! ## Software metadata processing (`process_eessi_software_metadata.py`)

The classifier consumes one parsed build record plus its source path and
the per-version toolchain hierarchy.  The spider-cache membership test
(`grep -q modulefile spider_cache`, an external index probe) is passed in
as an oracle `found`. -/

def ARCHITECTURES : List String := [
  "aarch64/generic",
  "aarch64/a64fx",
  "aarch64/neoverse_n1",
  "aarch64/neoverse_v1",
  "aarch64/nvidia/grace",
  "x86_64/generic",
  "x86_64/amd/zen2",
  "x86_64/amd/zen3",
  "x86_64/amd/zen4",
  "x86_64/intel/haswell",
  "x86_64/intel/skylake_avx512",
  "x86_64/intel/sapphirerapids",
  "x86_64/intel/icelake",
  "x86_64/intel/cascadelake"]

def TOOLCHAIN_FAMILIES : List String := [
  "foss_2025a",
  "foss_2024a",
  "foss_2023b",
  "foss_2023a",
  "foss_2022b"]

/-- One parsed build record (`file_metadata`). -/
structure FileMetadata where
  name : String := ""
  version : String := ""
  versionsuffix : String := ""
  description : String := ""
  homepage : String := ""
  toolchain : String := ""
  short_mod_name : String := ""
  required_modules : List String := []
  easyblocks : List String := []
  exts_list : List (String × String) := []
  components : Option (List (String × String)) := none
deriving DecidableEq

/-- One derived version dictionary (`version_dict`).  The base dictionary
of the classifier has no `description`, `version`, `versionsuffix`,
`parent_software` or `type` keys; they are modelled as defaulted fields
that every emitted record overwrites before the record is returned. -/
structure VersionRecord where
  homepage : String := ""
  license : List String := []
  image : String := ""
  categories : List String := []
  identifier : String := ""
  toolchain : String := ""
  toolchain_families_compatibility : List String := []
  modulename : String := ""
  required_modules : List String := []
  cpu_arch : List String := []
  gpu_arch : List (String × String) := []
  description : String := ""
  version : String := ""
  versionsuffix : String := ""
  parent_software : Option (List (String × String)) := none
  recType : Option String := none
deriving DecidableEq

/-- Aggregate entry for one primary software name (`{"versions": [...]}`). -/
structure SwEntry where
  versions : List VersionRecord
deriving DecidableEq

/-- Aggregate entry for one extension or component name
(`{"versions": [...], "parent_software": set()}`). -/
structure ExtEntry where
  versions : List VersionRecord
  parent_software : Finset String
deriving DecidableEq

/-- The five typed extension buckets built by the classifier. -/
structure ExtBuckets where
  python : List (String × ExtEntry)
  perl : List (String × ExtEntry)
  r : List (String × ExtEntry)
  octave : List (String × ExtEntry)
  ruby : List (String × ExtEntry)
deriving DecidableEq

def emptyExtBuckets : ExtBuckets := ⟨[], [], [], [], []⟩

/-- The value returned by the classifier: the primary-software mapping
plus the extension buckets and the component bucket. -/
structure ClassifierOutput where
  software : List (String × SwEntry)
  exts : ExtBuckets
  component : List (String × ExtEntry)
deriving DecidableEq

/-- Substring test (`sub in s` for strings). -/
def containsSubL (sub : List Char) : List Char → Bool
  | [] => sub.isEmpty
  | c :: rest => sub.isPrefixOf (c :: rest) || containsSubL sub rest

def strContains (s sub : String) : Bool :=
  containsSubL sub.toList s.toList

/-- The part of `s` before the first occurrence of `sep`
(`s.partition(sep)[0]`; the whole string when `sep` does not occur). -/
def partitionBeforeL (sep : List Char) : List Char → List Char
  | [] => []
  | c :: rest => if sep.isPrefixOf (c :: rest) then [] else c :: partitionBeforeL sep rest

def partitionBefore (s sep : String) : String :=
  String.mk (partitionBeforeL sep.toList s.toList)

/-- `before_arch + detected_arch + "/modules/all/" + short_mod_name + ".lua"`. -/
def mkModulefile (meta : FileMetadata) (original_path detected : String) : String :=
  partitionBefore original_path detected ++ detected ++ "/modules/all/" ++
    meta.short_mod_name ++ ".lua"

/-- `before_arch + detected_arch + "/.lmod/cache/spiderT.lua"`. -/
def mkSpiderCache (original_path detected : String) : String :=
  partitionBefore original_path detected ++ detected ++ "/.lmod/cache/spiderT.lua"

/-- The architecture-substitution loop: collect, in declaration order,
every known architecture whose substituted module file is found in the
substituted spider cache. -/
def computeCpuArch (meta : FileMetadata) (original_path detected : String)
    (found : String → String → Bool) : List String :=
  ARCHITECTURES.foldl
    (fun acc arch =>
      if found (replaceAllStr (mkModulefile meta original_path detected) detected arch)
          (replaceAllStr (mkSpiderCache original_path detected) detected arch)
      then acc ++ [arch]
      else acc)
    []

/-- The `base_version_dict` of the classifier. -/
def mkBaseVersionDict (meta : FileMetadata)
    (toolchain_families : List (String × List String)) (cpuArch : List String) :
    VersionRecord :=
  { homepage := meta.homepage
    license := []
    image := ""
    categories := []
    identifier := ""
    toolchain := meta.toolchain
    toolchain_families_compatibility :=
      (toolchain_families.filter (fun p => p.2.contains meta.toolchain)).map Prod.fst
    modulename := meta.short_mod_name
    required_modules := meta.required_modules
    cpu_arch := cpuArch
    gpu_arch := [] }

/-- The five recognized extension mechanisms, in the order of the
`if`/`elif` chain. -/
inductive ExtType where
  | python
  | perl
  | r
  | octave
  | ruby
deriving DecidableEq

/-- The `if`/`elif` chain over the classifier-block identifiers. -/
def extRoute (easyblocks : List String) : Option ExtType :=
  if "pythonpackage.py" ∈ easyblocks then some .python
  else if "rpackage.py" ∈ easyblocks then some .r
  else if "perlmodule.py" ∈ easyblocks then some .perl
  else if "octavepackage.py" ∈ easyblocks then some .octave
  else if "rubygem.py" ∈ easyblocks then some .ruby
  else none

/-- The type label interpolated into the synthesized description. -/
def extTypeLabel : ExtType → String
  | .python => "a Python package"
  | .r => "an R package"
  | .perl => "a Perl module package"
  | .octave => "an Octave package"
  | .ruby => "an Ruby gem"

/-- The VersionRecord emitted for one extension tuple.  The parent
back-reference is the evaluated dict literal
`{"name": ..., "version": ..., "versionsuffix": ...}`. -/
def mkExtVersionDict (meta : FileMetadata) (base : VersionRecord) (t : ExtType)
    (ext : String × String) : VersionRecord :=
  { base with
    version := ext.2
    versionsuffix := ""
    parent_software := some (mkDict
      [("name", meta.name), ("version", meta.version),
       ("versionsuffix", meta.versionsuffix)])
    description := ext.1 ++ " is " ++ extTypeLabel t ++
      " included in the software module for " ++ meta.name }

/-- The VersionRecord emitted for one component tuple.  The parent
back-reference is the evaluated dict literal with the duplicated
`"version"` key exactly as written in the source
(`{"name": ..., "version": file_metadata["version"],
"version": file_metadata["versionsuffix"]}`). -/
def mkComponentVersionDict (meta : FileMetadata) (base : VersionRecord)
    (comp : String × String) : VersionRecord :=
  { base with
    version := comp.2
    versionsuffix := ""
    recType := some "Component"
    parent_software := some (mkDict
      [("name", meta.name), ("version", meta.version),
       ("version", meta.versionsuffix)])
    description := comp.1 ++ " is a component included in the software module for " ++
      meta.name }

/-- `bucket[name] = {"versions": [], "parent_software": set()}` followed by
one append and one add: the entry for `name` is re-initialized in place
(or appended) with exactly the given entry. -/
def setExtEntry (bucket : List (String × ExtEntry)) (name : String) (e : ExtEntry) :
    List (String × ExtEntry) :=
  match lookupKey bucket name with
  | some _ => setKey bucket name e
  | none => bucket ++ [(name, e)]

/-- Select one of the five typed buckets. -/
def bucketOf (b : ExtBuckets) : ExtType → List (String × ExtEntry)
  | .python => b.python
  | .perl => b.perl
  | .r => b.r
  | .octave => b.octave
  | .ruby => b.ruby

/-- Re-initialize `name` inside the bucket of type `t`. -/
def updateBucket (b : ExtBuckets) (t : ExtType) (name : String) (e : ExtEntry) :
    ExtBuckets :=
  match t with
  | .python => { b with python := setExtEntry b.python name e }
  | .perl => { b with perl := setExtEntry b.perl name e }
  | .r => { b with r := setExtEntry b.r name e }
  | .octave => { b with octave := setExtEntry b.octave name e }
  | .ruby => { b with ruby := setExtEntry b.ruby name e }

/-- The `for ext in file_metadata["exts_list"]` loop: route each tuple
through the `if`/`elif` chain on the record-level identifiers, raising on
a record whose identifiers match none of the five mechanisms. -/
def processExts (meta : FileMetadata) (base : VersionRecord) (original_path : String) :
    List (String × String) → ExtBuckets → Except String ExtBuckets
  | [], b => .ok b
  | ext :: rest, b =>
    match extRoute meta.easyblocks with
    | some t =>
      processExts meta base original_path rest
        (updateBucket b t ext.1 ⟨[mkExtVersionDict meta base t ext], {meta.name}⟩)
    | none =>
      .error ("Only known extension types are R, Python and Perl! Easyblocks used by "
        ++ original_path)

/-- The `for component in file_metadata["components"]` loop: a present
name has the VersionRecord appended and the parent name added in place;
an absent name is first initialized with an empty entry (appended at the
end, like a fresh Python dict key) and then updated the same way, so its
net entry is the singleton one. -/
def processComponents (meta : FileMetadata) (base : VersionRecord) :
    List (String × String) → List (String × ExtEntry) → List (String × ExtEntry)
  | [], comps => comps
  | comp :: rest, comps =>
    match lookupKey comps comp.1 with
    | some e =>
      processComponents meta base rest
        (setKey comps comp.1
          ⟨e.versions ++ [mkComponentVersionDict meta base comp],
           insert meta.name e.parent_software⟩)
    | none =>
      processComponents meta base rest
        (comps ++ [(comp.1, ⟨[] ++ [mkComponentVersionDict meta base comp],
          insert meta.name ∅⟩)])

/-- The `base_version_dict` with the architecture list filled in for the
detected architecture. -/
def classifierBase (meta : FileMetadata) (original_path detected : String)
    (toolchain_families : List (String × List String))
    (found : String → String → Bool) : VersionRecord :=
  mkBaseVersionDict meta toolchain_families
    (computeCpuArch meta original_path detected found)

/-- The singleton software mapping built for the record itself. -/
def classifiedSoftware (meta : FileMetadata) (base : VersionRecord) :
    List (String × SwEntry) :=
  [(meta.name, SwEntry.mk
    [{ base with
        description := meta.description
        version := meta.version
        versionsuffix := meta.versionsuffix }])]

/-- The component bucket of the record (empty when the record has no
`components` key). -/
def classifiedComponents (meta : FileMetadata) (base : VersionRecord) :
    List (String × ExtEntry) :=
  match meta.components with
  | some cs => processComponents meta base cs []
  | none => []

/-- Model of `get_software_information_by_filename`. -/
def get_software_information_by_filename (meta : FileMetadata) (original_path : String)
    (toolchain_families : List (String × List String))
    (found : String → String → Bool) : Except String ClassifierOutput :=
  match ARCHITECTURES.find? (fun arch => strContains original_path ("/" ++ arch ++ "/")) with
  | none => .error "No known architecture matched in the input path."
  | some detected_arch =>
    match processExts meta
        (classifierBase meta original_path detected_arch toolchain_families found)
        original_path meta.exts_list emptyExtBuckets with
    | .error e => .error e
    | .ok buckets =>
      .ok ⟨classifiedSoftware meta
            (classifierBase meta original_path detected_arch toolchain_families found),
        buckets,
        classifiedComponents meta
          (classifierBase meta original_path detected_arch toolchain_families found)⟩

theorem foldl_filter_append {α : Type} (p : α → Bool) (l : List α) :
    ∀ acc, l.foldl (fun acc x => if p x then acc ++ [x] else acc) acc
      = acc ++ l.filter p := by
  induction l with
  | nil => intro acc; simp
  | cons x rest ih =>
    intro acc
    rw [List.foldl_cons]
    by_cases h : p x
    · rw [if_pos h, ih, List.filter_cons_of_pos h]
      simp
    · rw [if_neg h, ih, List.filter_cons_of_neg (by simpa using h)]

theorem computeCpuArch_eq_filter (meta : FileMetadata) (original_path detected : String)
    (found : String → String → Bool) :
    computeCpuArch meta original_path detected found
      = ARCHITECTURES.filter (fun arch =>
          found (replaceAllStr (mkModulefile meta original_path detected) detected arch)
            (replaceAllStr (mkSpiderCache original_path detected) detected arch)) := by
  rw [computeCpuArch, foldl_filter_append]
  rfl

theorem processExts_route_eq (meta : FileMetadata) (base : VersionRecord)
    (original_path : String) (t : ExtType)
    (hroute : extRoute meta.easyblocks = some t) :
    ∀ exts b, processExts meta base original_path exts b =
      .ok (exts.foldl (fun acc ext =>
        updateBucket acc t ext.1 ⟨[mkExtVersionDict meta base t ext], {meta.name}⟩) b) := by
  intro exts
  induction exts with
  | nil => intro b; rw [processExts, List.foldl_nil]
  | cons ext rest ih =>
    intro b
    rw [processExts, hroute, List.foldl_cons]
    exact ih _

theorem processExts_nil (meta : FileMetadata) (base : VersionRecord)
    (original_path : String) (b : ExtBuckets) :
    processExts meta base original_path [] b = .ok b := rfl

theorem processExts_no_route (meta : FileMetadata) (base : VersionRecord)
    (original_path : String) (hroute : extRoute meta.easyblocks = none)
    (ext : String × String) (rest : List (String × String)) (b : ExtBuckets) :
    processExts meta base original_path (ext :: rest) b
      = .error ("Only known extension types are R, Python and Perl! Easyblocks used by "
        ++ original_path) := by
  rw [processExts, hroute]

theorem classify_no_arch (meta : FileMetadata) (original_path : String)
    (toolchain_families : List (String × List String))
    (found : String → String → Bool)
    (h : ARCHITECTURES.find? (fun arch => strContains original_path ("/" ++ arch ++ "/"))
      = none) :
    get_software_information_by_filename meta original_path toolchain_families found
      = .error "No known architecture matched in the input path." := by
  rw [get_software_information_by_filename, h]

theorem classify_ok_inv (meta : FileMetadata) (original_path : String)
    (toolchain_families : List (String × List String))
    (found : String → String → Bool) (detected : String)
    (hfind : ARCHITECTURES.find? (fun arch => strContains original_path ("/" ++ arch ++ "/"))
      = some detected)
    (out : ClassifierOutput)
    (hok : get_software_information_by_filename meta original_path toolchain_families found
      = .ok out) :
    ∃ buckets,
      processExts meta (classifierBase meta original_path detected toolchain_families found)
        original_path meta.exts_list emptyExtBuckets = .ok buckets ∧
      out = ⟨classifiedSoftware meta
          (classifierBase meta original_path detected toolchain_families found),
        buckets,
        classifiedComponents meta
          (classifierBase meta original_path detected toolchain_families found)⟩ := by
  rw [get_software_information_by_filename, hfind] at hok
  have hok2 : (match processExts meta
      (classifierBase meta original_path detected toolchain_families found)
      original_path meta.exts_list emptyExtBuckets with
    | .error e => (.error e : Except String ClassifierOutput)
    | .ok buckets =>
      .ok ⟨classifiedSoftware meta
            (classifierBase meta original_path detected toolchain_families found),
        buckets,
        classifiedComponents meta
          (classifierBase meta original_path detected toolchain_families found)⟩)
      = .ok out := hok
  cases hpe : processExts meta (classifierBase meta original_path detected toolchain_families found)
      original_path meta.exts_list emptyExtBuckets with
  | error e =>
    rw [hpe] at hok2
    cases hok2
  | ok buckets =>
    rw [hpe] at hok2
    cases hok2
    exact ⟨buckets, rfl, rfl⟩

/-- C7: the architecture resolver fails fatally when no known
architecture token appears as a path segment of the input path; otherwise
it returns exactly the subset of known architectures, in declaration
order, for which the per-architecture index confirms the presence of the
module, and absence of an architecture from the index excludes it from
the list without raising any error. -/
theorem architecture_resolver_contract (meta : FileMetadata) (original_path : String)
    (toolchain_families : List (String × List String))
    (found : String → String → Bool) :
    ((∀ arch ∈ ARCHITECTURES, strContains original_path ("/" ++ arch ++ "/") = false) →
      get_software_information_by_filename meta original_path toolchain_families found
        = .error "No known architecture matched in the input path.")
    ∧ (∀ detected,
        ARCHITECTURES.find? (fun arch => strContains original_path ("/" ++ arch ++ "/"))
          = some detected →
        (∀ out, get_software_information_by_filename meta original_path toolchain_families found
            = .ok out →
          ∀ p ∈ out.software, ∀ v ∈ p.2.versions,
            v.cpu_arch = ARCHITECTURES.filter (fun arch =>
              found (replaceAllStr (mkModulefile meta original_path detected) detected arch)
                (replaceAllStr (mkSpiderCache original_path detected) detected arch)))
        ∧ ((meta.exts_list = [] ∨ ∃ t, extRoute meta.easyblocks = some t) →
          ∃ out, get_software_information_by_filename meta original_path toolchain_families found
            = .ok out)) := by
  constructor
  · intro hnone
    apply classify_no_arch
    rw [List.find?_eq_none]
    intro arch hmem
    rw [hnone arch hmem]
    simp
  · intro detected hfind
    constructor
    · intro out hok p hp v hv
      obtain ⟨buckets, hpe, rfl⟩ :=
        classify_ok_inv meta original_path toolchain_families found detected hfind out hok
      rw [classifiedSoftware] at hp
      simp only [List.mem_singleton] at hp
      subst hp
      simp only [List.mem_singleton] at hv
      subst hv
      show (classifierBase meta original_path detected toolchain_families found).cpu_arch = _
      rw [classifierBase, mkBaseVersionDict, computeCpuArch_eq_filter]
    · intro hcases
      rcases hcases with hnil | ⟨t, hroute⟩
      · refine ⟨⟨classifiedSoftware meta
            (classifierBase meta original_path detected toolchain_families found),
          emptyExtBuckets,
          classifiedComponents meta
            (classifierBase meta original_path detected toolchain_families found)⟩, ?_⟩
        rw [get_software_information_by_filename, hfind]
        show (match processExts meta
            (classifierBase meta original_path detected toolchain_families found)
            original_path meta.exts_list emptyExtBuckets with
          | .error e => (.error e : Except String ClassifierOutput)
          | .ok buckets =>
            .ok ⟨classifiedSoftware meta
                  (classifierBase meta original_path detected toolchain_families found),
              buckets,
              classifiedComponents meta
                (classifierBase meta original_path detected toolchain_families found)⟩) = _
        rw [hnil, processExts_nil]
      · refine ⟨⟨classifiedSoftware meta
            (classifierBase meta original_path detected toolchain_families found),
          meta.exts_list.foldl (fun acc ext =>
            updateBucket acc t ext.1
              ⟨[mkExtVersionDict meta
                  (classifierBase meta original_path detected toolchain_families found) t ext],
                {meta.name}⟩) emptyExtBuckets,
          classifiedComponents meta
            (classifierBase meta original_path detected toolchain_families found)⟩, ?_⟩
        rw [get_software_information_by_filename, hfind]
        show (match processExts meta
            (classifierBase meta original_path detected toolchain_families found)
            original_path meta.exts_list emptyExtBuckets with
          | .error e => (.error e : Except String ClassifierOutput)
          | .ok buckets =>
            .ok ⟨classifiedSoftware meta
                  (classifierBase meta original_path detected toolchain_families found),
              buckets,
              classifiedComponents meta
                (classifierBase meta original_path detected toolchain_families found)⟩) = _
        rw [processExts_route_eq meta
          (classifierBase meta original_path detected toolchain_families found)
          original_path t hroute]

theorem bucketOf_updateBucket_same (b : ExtBuckets) (t : ExtType) (name : String)
    (e : ExtEntry) :
    bucketOf (updateBucket b t name e) t = setExtEntry (bucketOf b t) name e := by
  cases t <;> rfl

theorem bucketOf_updateBucket_ne (b : ExtBuckets) (t t' : ExtType) (name : String)
    (e : ExtEntry) (h : t' ≠ t) :
    bucketOf (updateBucket b t name e) t' = bucketOf b t' := by
  cases t <;> cases t' <;> first | rfl | exact absurd rfl h

theorem keysOf_setExtEntry (bucket : List (String × ExtEntry)) (name : String)
    (e : ExtEntry) (k : String) :
    k ∈ keysOf (setExtEntry bucket name e) ↔ k ∈ keysOf bucket ∨ k = name := by
  rw [setExtEntry]
  cases hl : lookupKey bucket name with
  | some e0 =>
    rw [keysOf_setKey]
    constructor
    · exact Or.inl
    · rintro (h | rfl)
      · exact h
      · rw [← lookupKey_isSome_iff_mem, hl]
        rfl
  | none =>
    rw [keysOf_append]
    simp [keysOf]

theorem lookup_setExtEntry_self (bucket : List (String × ExtEntry)) (name : String)
    (e : ExtEntry) : lookupKey (setExtEntry bucket name e) name = some e := by
  rw [setExtEntry]
  cases hl : lookupKey bucket name with
  | some e0 =>
    exact lookupKey_setKey_self bucket name e (by rw [hl]; rfl)
  | none =>
    rw [lookupKey_append, hl]
    simp [lookupKey]

theorem lookup_setExtEntry_ne (bucket : List (String × ExtEntry)) (name n : String)
    (e : ExtEntry) (h : n ≠ name) :
    lookupKey (setExtEntry bucket name e) n = lookupKey bucket n := by
  rw [setExtEntry]
  cases hl : lookupKey bucket name with
  | some e0 => exact lookupKey_setKey_ne bucket name n e h
  | none =>
    rw [lookupKey_append]
    have hone : lookupKey [(name, e)] n = none := by
      simp [lookupKey]
      exact fun hh => h hh.symm
    rw [hone]
    cases lookupKey bucket n <;> rfl

theorem extFold_bucket_ne (t t' : ExtType) (h : t' ≠ t)
    (f : (String × String) → ExtEntry) :
    ∀ (exts : List (String × String)) (b : ExtBuckets),
      bucketOf (exts.foldl (fun acc ext => updateBucket acc t ext.1 (f ext)) b) t'
        = bucketOf b t' := by
  intro exts
  induction exts with
  | nil => intro b; rfl
  | cons ext rest ih =>
    intro b
    rw [List.foldl_cons, ih, bucketOf_updateBucket_ne _ _ _ _ _ h]

theorem extFold_bucket_keys (t : ExtType) (f : (String × String) → ExtEntry) :
    ∀ (exts : List (String × String)) (b : ExtBuckets) (k : String),
      k ∈ keysOf (bucketOf (exts.foldl (fun acc ext => updateBucket acc t ext.1 (f ext)) b) t)
        ↔ k ∈ keysOf (bucketOf b t) ∨ k ∈ exts.map Prod.fst := by
  intro exts
  induction exts with
  | nil => intro b k; simp
  | cons ext rest ih =>
    intro b k
    rw [List.foldl_cons, ih, bucketOf_updateBucket_same, keysOf_setExtEntry]
    simp
    tauto

/-- C5: for every extension tuple of a record, the classifier picks
exactly one extension type from python, perl, r, octave, ruby by
inspecting the classifier-block identifiers; each of the five recognized
identifiers routes the extension to its corresponding bucket, and a
record whose identifiers match none of the five raises a fatal
classification error rather than falling through silently. -/
theorem extension_classifier_exhaustive (meta : FileMetadata) (original_path : String)
    (toolchain_families : List (String × List String)) (found : String → String → Bool)
    (detected : String)
    (hfind : ARCHITECTURES.find? (fun arch => strContains original_path ("/" ++ arch ++ "/"))
      = some detected) :
    (("pythonpackage.py" ∉ meta.easyblocks ∧ "rpackage.py" ∉ meta.easyblocks ∧
      "perlmodule.py" ∉ meta.easyblocks ∧ "octavepackage.py" ∉ meta.easyblocks ∧
      "rubygem.py" ∉ meta.easyblocks) → meta.exts_list ≠ [] →
      get_software_information_by_filename meta original_path toolchain_families found
        = .error ("Only known extension types are R, Python and Perl! Easyblocks used by "
            ++ original_path))
    ∧ (∀ out, get_software_information_by_filename meta original_path toolchain_families found
          = .ok out →
        ∀ t, extRoute meta.easyblocks = some t →
          (∀ n, n ∈ keysOf (bucketOf out.exts t) ↔ n ∈ meta.exts_list.map Prod.fst)
          ∧ (∀ t', t' ≠ t → bucketOf out.exts t' = []))
    ∧ (("pythonpackage.py" ∈ meta.easyblocks → extRoute meta.easyblocks = some .python)
      ∧ ("pythonpackage.py" ∉ meta.easyblocks → "rpackage.py" ∈ meta.easyblocks →
          extRoute meta.easyblocks = some .r)
      ∧ ("pythonpackage.py" ∉ meta.easyblocks → "rpackage.py" ∉ meta.easyblocks →
          "perlmodule.py" ∈ meta.easyblocks → extRoute meta.easyblocks = some .perl)
      ∧ ("pythonpackage.py" ∉ meta.easyblocks → "rpackage.py" ∉ meta.easyblocks →
          "perlmodule.py" ∉ meta.easyblocks → "octavepackage.py" ∈ meta.easyblocks →
          extRoute meta.easyblocks = some .octave)
      ∧ ("pythonpackage.py" ∉ meta.easyblocks → "rpackage.py" ∉ meta.easyblocks →
          "perlmodule.py" ∉ meta.easyblocks → "octavepackage.py" ∉ meta.easyblocks →
          "rubygem.py" ∈ meta.easyblocks → extRoute meta.easyblocks = some .ruby)) := by
  refine ⟨?_, ?_, ?_⟩
  · rintro ⟨h1, h2, h3, h4, h5⟩ hne
    have hroute : extRoute meta.easyblocks = none := by
      rw [extRoute, if_neg h1, if_neg h2, if_neg h3, if_neg h4, if_neg h5]
    cases hexts : meta.exts_list with
    | nil => exact absurd hexts hne
    | cons ext rest =>
      rw [get_software_information_by_filename, hfind]
      show (match processExts meta
          (classifierBase meta original_path detected toolchain_families found)
          original_path meta.exts_list emptyExtBuckets with
        | .error e => (.error e : Except String ClassifierOutput)
        | .ok buckets =>
          .ok ⟨classifiedSoftware meta
                (classifierBase meta original_path detected toolchain_families found),
            buckets,
            classifiedComponents meta
              (classifierBase meta original_path detected toolchain_families found)⟩) = _
      rw [hexts, processExts_no_route meta _ original_path hroute]
  · intro out hok t hroute
    obtain ⟨buckets, hpe, rfl⟩ :=
      classify_ok_inv meta original_path toolchain_families found detected hfind out hok
    rw [processExts_route_eq meta _ original_path t hroute] at hpe
    have hb : buckets = meta.exts_list.foldl (fun acc ext =>
        updateBucket acc t ext.1
          ⟨[mkExtVersionDict meta
              (classifierBase meta original_path detected toolchain_families found) t ext],
            {meta.name}⟩) emptyExtBuckets := by
      cases hpe
      rfl
    subst hb
    constructor
    · intro n
      rw [extFold_bucket_keys]
      have hempty : keysOf (bucketOf emptyExtBuckets t) = [] := by
        cases t <;> rfl
      rw [hempty]
      simp
    · intro t' hne
      rw [extFold_bucket_ne t t' hne]
      cases t' <;> rfl
  · refine ⟨?_, ?_, ?_, ?_, ?_⟩
    · intro h1
      rw [extRoute, if_pos h1]
    · intro h1 h2
      rw [extRoute, if_neg h1, if_pos h2]
    · intro h1 h2 h3
      rw [extRoute, if_neg h1, if_neg h2, if_pos h3]
    · intro h1 h2 h3 h4
      rw [extRoute, if_neg h1, if_neg h2, if_neg h3, if_pos h4]
    · intro h1 h2 h3 h4 h5
      rw [extRoute, if_neg h1, if_neg h2, if_neg h3, if_neg h4, if_pos h5]

/-- Witness for C5: an unrecognized identifier aborts classification, and
a lone `rpackage.py` identifier routes to the r bucket. -/
theorem extension_classifier_exhaustive_witness :
    get_software_information_by_filename
      { name := "pkgA", easyblocks := ["unknownblock.py"], exts_list := [("extX", "0.1")] }
      "/cvmfs/repo/versions/2023.06/software/linux/aarch64/generic/software/pkgA" []
      (fun _ _ => true)
      = .error ("Only known extension types are R, Python and Perl! Easyblocks used by "
          ++ "/cvmfs/repo/versions/2023.06/software/linux/aarch64/generic/software/pkgA")
    ∧ extRoute ["rpackage.py"] = some .r := by
  constructor
  · exact (extension_classifier_exhaustive
      { name := "pkgA", easyblocks := ["unknownblock.py"], exts_list := [("extX", "0.1")] }
      "/cvmfs/repo/versions/2023.06/software/linux/aarch64/generic/software/pkgA" []
      (fun _ _ => true) "aarch64/generic" (by rfl)).1 (by decide) (by decide)
  · exact (extension_classifier_exhaustive
      { name := "pkgA", easyblocks := ["rpackage.py"] }
      "/cvmfs/repo/versions/2023.06/software/linux/aarch64/generic/software/pkgA" []
      (fun _ _ => true) "aarch64/generic" (by rfl)).2.2.2.1 (by decide) (by decide)

/-- C9: every VersionRecord the classifier emits for an extension carries
the structured parent back-reference with `name`, `version` and
`versionsuffix`; the analogous component record, whose source dict
literal repeats the `"version"` key, instead carries only `name` and a
`version` slot holding the parent versionsuffix, with no `versionsuffix`
key at all. -/
theorem parent_backreference_fields (meta : FileMetadata) (base : VersionRecord)
    (t : ExtType) (ext comp : String × String) :
    (mkExtVersionDict meta base t ext).parent_software
      = some [("name", meta.name), ("version", meta.version),
          ("versionsuffix", meta.versionsuffix)]
    ∧ (mkComponentVersionDict meta base comp).parent_software
      = some [("name", meta.name), ("version", meta.versionsuffix)]
    ∧ lookupKey [("name", meta.name), ("version", meta.versionsuffix)] "versionsuffix"
      = none := by
  refine ⟨rfl, rfl, rfl⟩

/-- Witness for C7: a path with no architecture segment fails fatally; an
architecture-qualified path classifies successfully, with the index
oracle deciding the architecture list. -/
theorem architecture_resolver_contract_witness :
    get_software_information_by_filename
      { name := "pkgA", easyblocks := ["pythonpackage.py"], exts_list := [("extX", "0.1")] }
      "/cvmfs/repo/no/architecture/here" [] (fun _ _ => true)
      = .error "No known architecture matched in the input path."
    ∧ (∃ out, get_software_information_by_filename
        { name := "pkgA", easyblocks := ["pythonpackage.py"], exts_list := [("extX", "0.1")] }
        "/cvmfs/repo/versions/2023.06/software/linux/aarch64/generic/software/pkgA" []
        (fun _ _ => true) = .ok out) := by
  constructor
  · exact (architecture_resolver_contract
      { name := "pkgA", easyblocks := ["pythonpackage.py"], exts_list := [("extX", "0.1")] }
      "/cvmfs/repo/no/architecture/here" [] (fun _ _ => true)).1 (by decide)
  · exact ((architecture_resolver_contract
      { name := "pkgA", easyblocks := ["pythonpackage.py"], exts_list := [("extX", "0.1")] }
      "/cvmfs/repo/versions/2023.06/software/linux/aarch64/generic/software/pkgA" []
      (fun _ _ => true)).2 "aarch64/generic" (by rfl)).2
      (Or.inr ⟨.python, by rfl⟩)

theorem extFold_lookup (t : ExtType) (f : (String × String) → ExtEntry) :
    ∀ (exts : List (String × String)) (b : ExtBuckets) (n : String),
      lookupKey (bucketOf (exts.foldl (fun acc ext => updateBucket acc t ext.1 (f ext)) b) t) n
        = match (exts.filter (fun e => e.1 = n)).getLast? with
          | some ext => some (f ext)
          | none => lookupKey (bucketOf b t) n := by
  intro exts
  induction exts with
  | nil => intro b n; rfl
  | cons ext rest ih =>
    intro b n
    rw [List.foldl_cons, ih]
    by_cases hn : ext.1 = n
    · rw [List.filter_cons_of_pos (by simpa using hn)]
      cases hfil : rest.filter (fun e => decide (e.1 = n)) with
      | nil =>
        show lookupKey (bucketOf (updateBucket b t ext.1 (f ext)) t) n = some (f ext)
        rw [bucketOf_updateBucket_same, ← hn]
        exact lookup_setExtEntry_self _ _ _
      | cons q qs =>
        rw [List.getLast?_cons_cons]
        cases hg : (q :: qs).getLast? with
        | some e2 => rfl
        | none =>
          exfalso
          rw [List.getLast?_eq_none_iff] at hg
          cases hg
    · rw [List.filter_cons_of_neg (by simpa using hn)]
      cases hg : (rest.filter (fun e => decide (e.1 = n))).getLast? with
      | some e2 => rfl
      | none =>
        show lookupKey (bucketOf (updateBucket b t ext.1 (f ext)) t) n
          = lookupKey (bucketOf b t) n
        rw [bucketOf_updateBucket_same]
        exact lookup_setExtEntry_ne _ _ _ _ (fun hh => hn hh.symm)

theorem processComponents_nil (meta : FileMetadata) (base : VersionRecord)
    (comps : List (String × ExtEntry)) :
    processComponents meta base [] comps = comps := rfl

theorem processComponents_cons_present (meta : FileMetadata) (base : VersionRecord)
    (c : String × String) (rest : List (String × String))
    (comps : List (String × ExtEntry)) (e : ExtEntry)
    (hl : lookupKey comps c.1 = some e) :
    processComponents meta base (c :: rest) comps =
      processComponents meta base rest
        (setKey comps c.1
          ⟨e.versions ++ [mkComponentVersionDict meta base c],
           insert meta.name e.parent_software⟩) := by
  rw [processComponents, hl]

theorem processComponents_cons_absent (meta : FileMetadata) (base : VersionRecord)
    (c : String × String) (rest : List (String × String))
    (comps : List (String × ExtEntry))
    (hl : lookupKey comps c.1 = none) :
    processComponents meta base (c :: rest) comps =
      processComponents meta base rest
        (comps ++ [(c.1, ⟨[] ++ [mkComponentVersionDict meta base c],
          insert meta.name ∅⟩)]) := by
  rw [processComponents, hl]

theorem processComponents_lookup (meta : FileMetadata) (base : VersionRecord) :
    ∀ (cs : List (String × String)) (comps : List (String × ExtEntry)) (n : String),
      lookupKey (processComponents meta base cs comps) n =
        match lookupKey comps n, cs.filter (fun c => c.1 = n) with
        | none, [] => none
        | none, occ => some ⟨occ.map (mkComponentVersionDict meta base), {meta.name}⟩
        | some e, [] => some e
        | some e, occ => some ⟨e.versions ++ occ.map (mkComponentVersionDict meta base),
            insert meta.name e.parent_software⟩ := by
  intro cs
  induction cs with
  | nil =>
    intro comps n
    rw [processComponents_nil]
    cases lookupKey comps n <;> rfl
  | cons c rest ih =>
    intro comps n
    by_cases hn : c.1 = n
    · subst hn
      cases hl : lookupKey comps c.1 with
      | some e0 =>
        rw [processComponents_cons_present meta base c rest comps e0 hl, ih]
        have hset : lookupKey (setKey comps c.1
            ⟨e0.versions ++ [mkComponentVersionDict meta base c],
             insert meta.name e0.parent_software⟩) c.1 = some
            ⟨e0.versions ++ [mkComponentVersionDict meta base c],
             insert meta.name e0.parent_software⟩ :=
          lookupKey_setKey_self comps c.1 _ (by rw [hl]; rfl)
        rw [hset, List.filter_cons_of_pos (by simp)]
        cases hfil : rest.filter (fun q => decide (q.1 = c.1)) with
        | nil => rfl
        | cons q qs =>
          simp only [Option.some.injEq, ExtEntry.mk.injEq]
          refine ⟨by simp, ?_⟩
          rw [Finset.insert_idem]
      | none =>
        rw [processComponents_cons_absent meta base c rest comps hl, ih]
        have hset : lookupKey (comps ++ [(c.1,
            (⟨[] ++ [mkComponentVersionDict meta base c], insert meta.name ∅⟩ : ExtEntry))]) c.1
            = some ⟨[] ++ [mkComponentVersionDict meta base c], insert meta.name ∅⟩ := by
          rw [lookupKey_append, hl]
          simp [lookupKey]
        rw [hset, List.filter_cons_of_pos (by simp)]
        cases hfil : rest.filter (fun q => decide (q.1 = c.1)) with
        | nil =>
          simp only [Option.some.injEq, ExtEntry.mk.injEq]
          refine ⟨by simp, ?_⟩
          simp
        | cons q qs =>
          simp only [Option.some.injEq, ExtEntry.mk.injEq]
          refine ⟨by simp, ?_⟩
          rw [Finset.insert_idem]
          simp
    · cases hl : lookupKey comps c.1 with
      | some e0 =>
        rw [processComponents_cons_present meta base c rest comps e0 hl, ih]
        rw [lookupKey_setKey_ne comps c.1 n _ (fun hh => hn hh.symm)]
        rw [List.filter_cons_of_neg (by simpa using hn)]
      | none =>
        rw [processComponents_cons_absent meta base c rest comps hl, ih]
        have hkeep : lookupKey (comps ++ [(c.1,
            (⟨[] ++ [mkComponentVersionDict meta base c], insert meta.name ∅⟩ : ExtEntry))]) n
            = lookupKey comps n := by
          rw [lookupKey_append]
          have hone : lookupKey [(c.1,
              (⟨[] ++ [mkComponentVersionDict meta base c], insert meta.name ∅⟩ : ExtEntry))] n
              = none := by
            simp [lookupKey]
            exact fun hh => hn hh
          rw [hone]
          cases lookupKey comps n <;> rfl
        rw [hkeep, List.filter_cons_of_neg (by simpa using hn)]

/-- C10: within a single record's classifier output, a repeated extension
name keeps only the VersionRecord of its last tuple (each occurrence
re-initializes that name's entry), whereas repeated component names
within one record accumulate all of their VersionRecords. -/
theorem classifier_repeated_names (meta : FileMetadata) (original_path : String)
    (toolchain_families : List (String × List String)) (found : String → String → Bool)
    (detected : String)
    (hfind : ARCHITECTURES.find? (fun arch => strContains original_path ("/" ++ arch ++ "/"))
      = some detected)
    (out : ClassifierOutput)
    (hok : get_software_information_by_filename meta original_path toolchain_families found
      = .ok out) :
    (∀ t, extRoute meta.easyblocks = some t →
      ∀ n, lookupKey (bucketOf out.exts t) n
        = ((meta.exts_list.filter (fun e => e.1 = n)).getLast?).map
            (fun ext => ExtEntry.mk
              [mkExtVersionDict meta
                (classifierBase meta original_path detected toolchain_families found) t ext]
              {meta.name}))
    ∧ (∀ cs, meta.components = some cs →
      ∀ n, lookupKey out.component n
        = match cs.filter (fun c => c.1 = n) with
          | [] => none
          | occ => some (ExtEntry.mk
              (occ.map (mkComponentVersionDict meta
                (classifierBase meta original_path detected toolchain_families found)))
              {meta.name})) := by
  obtain ⟨buckets, hpe, rfl⟩ :=
    classify_ok_inv meta original_path toolchain_families found detected hfind out hok
  constructor
  · intro t hroute n
    rw [processExts_route_eq meta _ original_path t hroute] at hpe
    have hb : buckets = meta.exts_list.foldl (fun acc ext =>
        updateBucket acc t ext.1
          ⟨[mkExtVersionDict meta
              (classifierBase meta original_path detected toolchain_families found) t ext],
            {meta.name}⟩) emptyExtBuckets := by
      cases hpe
      rfl
    subst hb
    show lookupKey (bucketOf (meta.exts_list.foldl _ emptyExtBuckets) t) n = _
    rw [extFold_lookup]
    cases hg : (meta.exts_list.filter (fun e => decide (e.1 = n))).getLast? with
    | some ext => rfl
    | none =>
      show lookupKey (bucketOf emptyExtBuckets t) n = none
      cases t <;> rfl
  · intro cs hcs n
    show lookupKey (classifiedComponents meta
      (classifierBase meta original_path detected toolchain_families found)) n = _
    rw [classifiedComponents, hcs, processComponents_lookup]
    cases hfil : cs.filter (fun c => decide (c.1 = n)) with
    | nil => rfl
    | cons q qs => rfl

/-- A build record with a duplicated extension name and a duplicated
component name, for exercising C10 concretely. -/
def dupMeta : FileMetadata :=
  { name := "pkgA", version := "1.0", easyblocks := ["pythonpackage.py"],
    exts_list := [("dup", "1"), ("dup", "2")],
    components := some [("cd", "1"), ("cd", "2")] }

def dupPath : String :=
  "/cvmfs/repo/versions/2023.06/software/linux/aarch64/generic/software/pkgA"

def dupBase : VersionRecord :=
  classifierBase dupMeta dupPath "aarch64/generic" [] (fun _ _ => true)

/-- Witness for C10: the duplicated extension keeps only its last tuple,
the duplicated component keeps both. -/
theorem classifier_repeated_names_witness :
    ∃ out, get_software_information_by_filename dupMeta dupPath [] (fun _ _ => true)
        = .ok out
      ∧ lookupKey (bucketOf out.exts .python) "dup"
          = some ⟨[mkExtVersionDict dupMeta dupBase .python ("dup", "2")], {"pkgA"}⟩
      ∧ lookupKey out.component "cd"
          = some ⟨[mkComponentVersionDict dupMeta dupBase ("cd", "1"),
              mkComponentVersionDict dupMeta dupBase ("cd", "2")], {"pkgA"}⟩ := by
  refine ⟨_, rfl, ?_, ?_⟩
  · have h := classifier_repeated_names dupMeta dupPath [] (fun _ _ => true)
      "aarch64/generic" (by rfl) _ rfl
    rw [h.1 .python (by rfl) "dup"]
    rfl
  · have h := classifier_repeated_names dupMeta dupPath [] (fun _ _ => true)
      "aarch64/generic" (by rfl) _ rfl
    rw [h.2 [("cd", "1"), ("cd", "2")] (by rfl) "cd"]
    rfl

/-! ## Reference selection (`get_all_software`, selection phase)

For every aggregated name the selection loop scans `TOOLCHAIN_FAMILIES`
in order and, inside, the entry's version records in order, overwriting
the reference on every match; a missing reference raises `ValueError`. -/

/-- The nested selection loop of `get_all_software` (run once with the
global `TOOLCHAIN_FAMILIES` list). -/
def pickReference (toolchain_families_order : List String)
    (versions : List VersionRecord) : Option VersionRecord :=
  toolchain_families_order.foldl
    (fun reference_version toolchain_family =>
      versions.foldl
        (fun acc version =>
          if toolchain_family ∈ version.toolchain_families_compatibility then some version
          else acc)
        reference_version)
    none

/-- Reference selection as the specification words it: the last family in
the priority order that has any compatible version record supplies the
reference, and within that family the last matching record in list
order wins. -/
def pickReferenceSpec (fams : List String) (versions : List VersionRecord) :
    Option VersionRecord :=
  (fams.reverse.find? (fun f =>
    versions.any (fun v => decide (f ∈ v.toolchain_families_compatibility)))).bind
    (fun f => versions.reverse.find? (fun v =>
      decide (f ∈ v.toolchain_families_compatibility)))

theorem findOr_append {α : Type} (p : α → Bool) :
    ∀ l₁ l₂ : List α, (l₁ ++ l₂).find? p = (l₁.find? p).or (l₂.find? p) := by
  intro l₁
  induction l₁ with
  | nil => intro l₂; simp
  | cons x rest ih =>
    intro l₂
    by_cases h : p x
    · rw [List.cons_append, List.find?_cons_of_pos _ h, List.find?_cons_of_pos _ h]
      rfl
    · rw [List.cons_append, List.find?_cons_of_neg _ (by simpa using h),
        List.find?_cons_of_neg _ (by simpa using h), ih]

theorem innerFold_eq (f : String) (vs : List VersionRecord) :
    ∀ acc, vs.foldl (fun acc version =>
        if f ∈ version.toolchain_families_compatibility then some version else acc) acc
      = (vs.reverse.find? (fun v =>
          decide (f ∈ v.toolchain_families_compatibility))).or acc := by
  induction vs with
  | nil => intro acc; simp
  | cons v rest ih =>
    intro acc
    rw [List.foldl_cons, ih, List.reverse_cons, findOr_append, Option.or_assoc]
    by_cases h : f ∈ v.toolchain_families_compatibility
    · rw [if_pos h]
      have hone : List.find? (fun v =>
          decide (f ∈ v.toolchain_families_compatibility)) [v] = some v := by
        rw [List.find?_cons_of_pos _ (by simpa using h)]
      rw [hone]
      rfl
    · rw [if_neg h]
      have hone : List.find? (fun v =>
          decide (f ∈ v.toolchain_families_compatibility)) [v] = none := by
        rw [List.find?_cons_of_neg _ (by simpa using h)]
        rfl
      rw [hone]
      rfl

theorem find?_isSome_any {α : Type} (p : α → Bool) (l : List α) :
    (l.find? p).isSome = l.any p := by
  induction l with
  | nil => rfl
  | cons x rest ih =>
    by_cases h : p x
    · rw [List.find?_cons_of_pos _ h, List.any_cons, h]
      rfl
    · rw [List.find?_cons_of_neg _ (by simpa using h), List.any_cons, ih]
      simp [h]

theorem outerFold_eq (F : String → Option VersionRecord) :
    ∀ (fams : List String) (acc : Option VersionRecord),
      fams.foldl (fun acc f => (F f).or acc) acc
        = ((fams.reverse.find? (fun f => (F f).isSome)).bind F).or acc := by
  intro fams
  induction fams with
  | nil => intro acc; simp
  | cons f rest ih =>
    intro acc
    rw [List.foldl_cons, ih, List.reverse_cons, findOr_append]
    cases hr : rest.reverse.find? (fun f => (F f).isSome) with
    | some g =>
      have hg := List.find?_some hr
      obtain ⟨w, hw⟩ := Option.isSome_iff_exists.mp hg
      simp [hw]
    | none =>
      by_cases hf : (F f).isSome = true
      · have hone : List.find? (fun f => (F f).isSome) [f] = some f :=
          List.find?_cons_of_pos _ hf
        rw [hone]
        obtain ⟨w, hw⟩ := Option.isSome_iff_exists.mp hf
        simp [hw]
      · have hone : List.find? (fun f => (F f).isSome) [f] = none := by
          have h2 : List.find? (fun f => (F f).isSome) [f]
              = List.find? (fun f => (F f).isSome) [] :=
            List.find?_cons_of_neg _ (by simpa using hf)
          rw [h2]
          rfl
        rw [hone]
        have hnone : F f = none := Option.not_isSome_iff_eq_none.mp (by simpa using hf)
        simp [hnone]

theorem pickReference_eq_spec (fams : List String) (versions : List VersionRecord) :
    pickReference fams versions = pickReferenceSpec fams versions := by
  have hstep : (fun (acc : Option VersionRecord) (f : String) =>
      versions.foldl (fun acc version =>
        if f ∈ version.toolchain_families_compatibility then some version else acc) acc)
      = fun acc f => ((versions.reverse.find? (fun v =>
          decide (f ∈ v.toolchain_families_compatibility))).or acc) := by
    funext acc f
    exact innerFold_eq f versions acc
  rw [pickReference, hstep,
    outerFold_eq (fun f => versions.reverse.find? (fun v =>
      decide (f ∈ v.toolchain_families_compatibility))) fams none]
  rw [Option.or_none]
  rw [pickReferenceSpec]
  have hpred : (fun f => (versions.reverse.find? (fun v =>
      decide (f ∈ v.toolchain_families_compatibility))).isSome)
      = fun f => versions.any (fun v => decide (f ∈ v.toolchain_families_compatibility)) := by
    funext f
    rw [find?_isSome_any]
    exact List.any_reverse
  rw [hpred]

/-- C1: reference selection scans the newest-first family list and, for
each family, the entry's VersionRecords; a later match overwrites an
earlier one, so the last family in priority order with any compatible
record supplies the reference, and within it the last matching record in
list order.  In particular, with records compatible with `old` and `new`
respectively and priority `[new, old]`, the `old`-compatible record is
chosen. -/
theorem reference_selection_last_match :
    (∀ fams versions, pickReference fams versions = pickReferenceSpec fams versions)
    ∧ pickReference ["new", "old"]
        [{ toolchain_families_compatibility := ["old"], version := "1.0" },
         { toolchain_families_compatibility := ["new"], version := "2.0" }]
      = some { toolchain_families_compatibility := ["old"], version := "1.0" } := by
  exact ⟨pickReference_eq_spec, by rfl⟩

/-- A software aggregate entry after the selection phase copied the
shared fields (`top_level_info_list` plus `description`). -/
structure SwEntryFinal where
  versions : List VersionRecord
  homepage : String
  license : List String
  image : String
  categories : List String
  identifier : String
  description : String
deriving DecidableEq

/-- An extension aggregate entry after the selection phase. -/
structure ExtEntryFinal where
  versions : List VersionRecord
  description : String
  homepage : String
  license : List String
  image : String
  categories : List String
  identifier : String
deriving DecidableEq

def isWordChar (c : Char) : Bool :=
  c.isAlphanum || c = '_' || c = '-'

/-- Model of `re.sub(r"\b[\w-]+\b(?=\s*$)", repl, desc)` on the
descriptions synthesized by the classifier: the trailing run of word
characters before trailing whitespace is replaced by `repl`. -/
def replaceLastWord (desc repl : String) : String :=
  let rcs := desc.toList.reverse
  let rest := rcs.dropWhile (fun c => c.isWhitespace)
  if (rest.takeWhile isWordChar).isEmpty then desc
  else
    String.mk ((rest.dropWhile isWordChar).reverse ++ repl.toList ++
      (rcs.takeWhile (fun c => c.isWhitespace)).reverse)

/-- The per-software selection step of `get_all_software` (lines
223-233): pick the reference by the nested family scan, raising when
none matches, then copy the shared fields onto the entry. -/
def selectSoftwareEntry (entry : SwEntry) : Except String SwEntryFinal :=
  match pickReference TOOLCHAIN_FAMILIES entry.versions with
  | none => .error "No toolchain compatibility in entry"
  | some ref => .ok
    ⟨entry.versions, ref.homepage, ref.license, ref.image, ref.categories,
     ref.identifier, ref.description⟩

/-- The per-extension selection step of `get_all_software` (lines
248-264): pick the reference the same way, raising when none matches,
then re-synthesize the description by substituting the rendered
parent-software set (`setRepr`, Python `str` on a set) for the trailing
word of the reference description, and copy the shared fields. -/
def selectExtensionEntry (setRepr : Finset String → String) (entry : ExtEntry) :
    Except String ExtEntryFinal :=
  match pickReference TOOLCHAIN_FAMILIES entry.versions with
  | none => .error "No toolchain compatibility in entry"
  | some ref => .ok
    ⟨entry.versions, replaceLastWord ref.description (setRepr entry.parent_software),
     ref.homepage, ref.license, ref.image, ref.categories, ref.identifier⟩

theorem pickReference_none (fams : List String) (vs : List VersionRecord)
    (h : ∀ fam ∈ fams, ∀ v ∈ vs, fam ∉ v.toolchain_families_compatibility) :
    pickReference fams vs = none := by
  rw [pickReference_eq_spec, pickReferenceSpec]
  have hfind : fams.reverse.find? (fun f =>
      vs.any (fun v => decide (f ∈ v.toolchain_families_compatibility))) = none := by
    rw [List.find?_eq_none]
    intro f hf
    rw [List.mem_reverse] at hf
    simp only [List.any_eq_true, not_exists]
    intro v
    rintro ⟨hv, hdec⟩
    rw [decide_eq_true_eq] at hdec
    exact h f hf v hv hdec
  rw [hfind]
  rfl

/-- C6: during reference selection, an aggregate none of whose
VersionRecords is compatible with any family in the ordered
toolchain-family list makes selection fail fatally instead of silently
skipping the entry or picking an arbitrary record, both for primary
software entries and for extension/component entries. -/
theorem selection_no_match_fatal (entry : SwEntry) (eentry : ExtEntry)
    (setRepr : Finset String → String)
    (h1 : ∀ fam ∈ TOOLCHAIN_FAMILIES, ∀ v ∈ entry.versions,
      fam ∉ v.toolchain_families_compatibility)
    (h2 : ∀ fam ∈ TOOLCHAIN_FAMILIES, ∀ v ∈ eentry.versions,
      fam ∉ v.toolchain_families_compatibility) :
    selectSoftwareEntry entry = .error "No toolchain compatibility in entry"
    ∧ selectExtensionEntry setRepr eentry = .error "No toolchain compatibility in entry" := by
  constructor
  · rw [selectSoftwareEntry, pickReference_none TOOLCHAIN_FAMILIES entry.versions h1]
  · rw [selectExtensionEntry, pickReference_none TOOLCHAIN_FAMILIES eentry.versions h2]

/-- Witness for C6 at entries whose only record is compatible with no
known family. -/
theorem selection_no_match_fatal_witness :
    (∀ fam ∈ TOOLCHAIN_FAMILIES,
      ∀ v ∈ (SwEntry.mk [{ toolchain_families_compatibility := ["ancient_2010a"] }]).versions,
        fam ∉ v.toolchain_families_compatibility)
    ∧ selectSoftwareEntry (SwEntry.mk [{ toolchain_families_compatibility := ["ancient_2010a"] }])
        = .error "No toolchain compatibility in entry"
    ∧ selectExtensionEntry (fun _ => "")
        (ExtEntry.mk [{ toolchain_families_compatibility := ["ancient_2010a"] }] ∅)
        = .error "No toolchain compatibility in entry" := by
  have h := selection_no_match_fatal
    (SwEntry.mk [{ toolchain_families_compatibility := ["ancient_2010a"] }])
    (ExtEntry.mk [{ toolchain_families_compatibility := ["ancient_2010a"] }] ∅)
    (fun _ => "") (by decide) (by decide)
  exact ⟨by decide, h.1, h.2⟩

/-! ## Aggregation (`get_all_software`, accumulation phase)

Classifier outputs are folded into global mappings: the software mapping
extends each name's version list; the six extension mappings extend the
version list and union the parent-software set. -/

/-- The seven aggregate partitions apart from primary software. -/
inductive ExtKind where
  | python
  | perl
  | r
  | octave
  | ruby
  | component
deriving DecidableEq

/-- The per-record bucket feeding one extension partition. -/
def outputBucket (u : ClassifierOutput) : ExtKind → List (String × ExtEntry)
  | .python => u.exts.python
  | .perl => u.exts.perl
  | .r => u.exts.r
  | .octave => u.exts.octave
  | .ruby => u.exts.ruby
  | .component => u.component

/-- The global accumulation state of `get_all_software`. -/
structure AggState where
  software : List (String × SwEntry)
  python : List (String × ExtEntry)
  perl : List (String × ExtEntry)
  r : List (String × ExtEntry)
  octave : List (String × ExtEntry)
  ruby : List (String × ExtEntry)
  component : List (String × ExtEntry)
deriving DecidableEq

def stateBucket (s : AggState) : ExtKind → List (String × ExtEntry)
  | .python => s.python
  | .perl => s.perl
  | .r => s.r
  | .octave => s.octave
  | .ruby => s.ruby
  | .component => s.component

/-- `if software not in all: all[software] = {"versions": []}` followed by
`all[software]["versions"].extend(...)`. -/
def extendSoftware (acc : List (String × SwEntry)) (name : String)
    (vs : List VersionRecord) : List (String × SwEntry) :=
  match lookupKey acc name with
  | none => acc ++ [(name, ⟨[] ++ vs⟩)]
  | some e => setKey acc name ⟨e.versions ++ vs⟩

/-- The analogous step for an extension name: extend the version list and
union (`set.update`) the parent-software set. -/
def extendExtension (acc : List (String × ExtEntry)) (name : String) (e : ExtEntry) :
    List (String × ExtEntry) :=
  match lookupKey acc name with
  | none => acc ++ [(name, ⟨[] ++ e.versions, ∅ ∪ e.parent_software⟩)]
  | some cur => setKey acc name
      ⟨cur.versions ++ e.versions, cur.parent_software ∪ e.parent_software⟩

/-- Folding one classifier output into the global state. -/
def aggStep (s : AggState) (u : ClassifierOutput) : AggState :=
  { software := u.software.foldl (fun acc p => extendSoftware acc p.1 p.2.versions) s.software
    python := u.exts.python.foldl (fun acc p => extendExtension acc p.1 p.2) s.python
    perl := u.exts.perl.foldl (fun acc p => extendExtension acc p.1 p.2) s.perl
    r := u.exts.r.foldl (fun acc p => extendExtension acc p.1 p.2) s.r
    octave := u.exts.octave.foldl (fun acc p => extendExtension acc p.1 p.2) s.octave
    ruby := u.exts.ruby.foldl (fun acc p => extendExtension acc p.1 p.2) s.ruby
    component := u.component.foldl (fun acc p => extendExtension acc p.1 p.2) s.component }

def initialAggState : AggState := ⟨[], [], [], [], [], [], []⟩

/-- The accumulation loop of `get_all_software` over all classified
records (flattened across distribution versions and files). -/
def get_all_software_aggregate (records : List ClassifierOutput) : AggState :=
  records.foldl aggStep initialAggState

/-- The multiset of VersionRecords aggregated under one software name. -/
def swVersionsAt (s : List (String × SwEntry)) (n : String) : Multiset VersionRecord :=
  match lookupKey s n with
  | some e => (e.versions : Multiset VersionRecord)
  | none => 0

/-- The multiset of VersionRecords aggregated under one extension name. -/
def extVersionsAt (s : List (String × ExtEntry)) (n : String) : Multiset VersionRecord :=
  match lookupKey s n with
  | some e => (e.versions : Multiset VersionRecord)
  | none => 0

/-- The parent-software name set aggregated under one extension name. -/
def extParentsAt (s : List (String × ExtEntry)) (n : String) : Finset String :=
  match lookupKey s n with
  | some e => e.parent_software
  | none => ∅

/-- The versions one classifier output contributes to a software name. -/
def swContrib (u : ClassifierOutput) (n : String) : Multiset VersionRecord :=
  ((u.software.filter (fun p => p.1 = n)).map
    (fun p => (p.2.versions : Multiset VersionRecord))).sum

/-- The versions one classifier output contributes to an extension name. -/
def extContrib (u : ClassifierOutput) (k : ExtKind) (n : String) : Multiset VersionRecord :=
  (((outputBucket u k).filter (fun p => p.1 = n)).map
    (fun p => (p.2.versions : Multiset VersionRecord))).sum

/-- The parent names one classifier output contributes to an extension
name. -/
def parContrib (u : ClassifierOutput) (k : ExtKind) (n : String) : Finset String :=
  (((outputBucket u k).filter (fun p => p.1 = n)).map
    (fun p => p.2.parent_software)).foldr (· ∪ ·) ∅

theorem extendSoftware_at (acc : List (String × SwEntry)) (name : String)
    (vs : List VersionRecord) (n : String) :
    swVersionsAt (extendSoftware acc name vs) n
      = swVersionsAt acc n + (if name = n then (vs : Multiset VersionRecord) else 0) := by
  rw [extendSoftware]
  cases hl : lookupKey acc name with
  | none =>
    rw [swVersionsAt, swVersionsAt, lookupKey_append]
    by_cases hn : name = n
    · subst hn
      rw [hl]
      simp [lookupKey]
    · have hone : lookupKey [(name, SwEntry.mk ([] ++ vs))] n = none := by
        simp [lookupKey]
        exact fun hh => hn hh
      rw [hone, if_neg hn]
      cases lookupKey acc n <;> simp
  | some e =>
    rw [swVersionsAt, swVersionsAt]
    by_cases hn : name = n
    · subst hn
      rw [lookupKey_setKey_self acc name _ (by rw [hl]; rfl), hl]
      simp
    · rw [lookupKey_setKey_ne acc name n _ (fun hh => hn hh.symm), if_neg hn]
      cases lookupKey acc n <;> simp

theorem extendExtension_at (acc : List (String × ExtEntry)) (name : String)
    (e : ExtEntry) (n : String) :
    extVersionsAt (extendExtension acc name e) n
      = extVersionsAt acc n + (if name = n then (e.versions : Multiset VersionRecord) else 0) := by
  rw [extendExtension]
  cases hl : lookupKey acc name with
  | none =>
    rw [extVersionsAt, extVersionsAt, lookupKey_append]
    by_cases hn : name = n
    · subst hn
      rw [hl]
      simp [lookupKey]
    · have hone : lookupKey [(name, ExtEntry.mk ([] ++ e.versions) (∅ ∪ e.parent_software))] n
          = none := by
        simp [lookupKey]
        exact fun hh => hn hh
      rw [hone, if_neg hn]
      cases lookupKey acc n <;> simp
  | some cur =>
    rw [extVersionsAt, extVersionsAt]
    by_cases hn : name = n
    · subst hn
      rw [lookupKey_setKey_self acc name _ (by rw [hl]; rfl), hl]
      simp
    · rw [lookupKey_setKey_ne acc name n _ (fun hh => hn hh.symm), if_neg hn]
      cases lookupKey acc n <;> simp

theorem extendExtension_par (acc : List (String × ExtEntry)) (name : String)
    (e : ExtEntry) (n : String) :
    extParentsAt (extendExtension acc name e) n
      = extParentsAt acc n ∪ (if name = n then e.parent_software else ∅) := by
  rw [extendExtension]
  cases hl : lookupKey acc name with
  | none =>
    rw [extParentsAt, extParentsAt, lookupKey_append]
    by_cases hn : name = n
    · subst hn
      rw [hl]
      simp [lookupKey]
    · have hone : lookupKey [(name, ExtEntry.mk ([] ++ e.versions) (∅ ∪ e.parent_software))] n
          = none := by
        simp [lookupKey]
        exact fun hh => hn hh
      rw [hone, if_neg hn]
      cases lookupKey acc n <;> simp
  | some cur =>
    rw [extParentsAt, extParentsAt]
    by_cases hn : name = n
    · subst hn
      rw [lookupKey_setKey_self acc name _ (by rw [hl]; rfl), hl]
      simp
    · rw [lookupKey_setKey_ne acc name n _ (fun hh => hn hh.symm), if_neg hn]
      cases lookupKey acc n <;> simp

theorem swFold_at (us : List (String × SwEntry)) :
    ∀ acc n, swVersionsAt (us.foldl (fun acc p => extendSoftware acc p.1 p.2.versions) acc) n
      = swVersionsAt acc n + ((us.filter (fun p => p.1 = n)).map
          (fun p => (p.2.versions : Multiset VersionRecord))).sum := by
  induction us with
  | nil => intro acc n; simp
  | cons p rest ih =>
    intro acc n
    rw [List.foldl_cons, ih, extendSoftware_at]
    by_cases hn : p.1 = n
    · rw [List.filter_cons_of_pos (by simpa using hn), if_pos hn, List.map_cons,
        List.sum_cons, add_assoc]
    · rw [List.filter_cons_of_neg (by simpa using hn), if_neg hn, add_zero]

theorem extFold_at (us : List (String × ExtEntry)) :
    ∀ acc n, extVersionsAt (us.foldl (fun acc p => extendExtension acc p.1 p.2) acc) n
      = extVersionsAt acc n + ((us.filter (fun p => p.1 = n)).map
          (fun p => (p.2.versions : Multiset VersionRecord))).sum := by
  induction us with
  | nil => intro acc n; simp
  | cons p rest ih =>
    intro acc n
    rw [List.foldl_cons, ih, extendExtension_at]
    by_cases hn : p.1 = n
    · rw [List.filter_cons_of_pos (by simpa using hn), if_pos hn, List.map_cons,
        List.sum_cons, add_assoc]
    · rw [List.filter_cons_of_neg (by simpa using hn), if_neg hn, add_zero]

theorem parFold_at (us : List (String × ExtEntry)) :
    ∀ acc n, extParentsAt (us.foldl (fun acc p => extendExtension acc p.1 p.2) acc) n
      = extParentsAt acc n ∪ ((us.filter (fun p => p.1 = n)).map
          (fun p => p.2.parent_software)).foldr (· ∪ ·) ∅ := by
  induction us with
  | nil => intro acc n; simp
  | cons p rest ih =>
    intro acc n
    rw [List.foldl_cons, ih, extendExtension_par]
    by_cases hn : p.1 = n
    · rw [List.filter_cons_of_pos (by simpa using hn), if_pos hn, List.map_cons,
        List.foldr_cons, Finset.union_assoc]
    · rw [List.filter_cons_of_neg (by simpa using hn), if_neg hn, Finset.union_empty]

theorem stateBucket_aggStep (s : AggState) (u : ClassifierOutput) (k : ExtKind) :
    stateBucket (aggStep s u) k
      = (outputBucket u k).foldl (fun acc p => extendExtension acc p.1 p.2)
          (stateBucket s k) := by
  cases k <;> rfl

theorem agg_sw (l : List ClassifierOutput) :
    ∀ s n, swVersionsAt ((l.foldl aggStep s).software) n
      = swVersionsAt s.software n + (l.map (fun u => swContrib u n)).sum := by
  induction l with
  | nil => intro s n; simp
  | cons u rest ih =>
    intro s n
    rw [List.foldl_cons, ih]
    have hstep : (aggStep s u).software
        = u.software.foldl (fun acc p => extendSoftware acc p.1 p.2.versions) s.software := rfl
    rw [hstep, swFold_at, List.map_cons, List.sum_cons, add_assoc]
    rfl

theorem agg_ext (l : List ClassifierOutput) :
    ∀ s k n, extVersionsAt (stateBucket (l.foldl aggStep s) k) n
      = extVersionsAt (stateBucket s k) n + (l.map (fun u => extContrib u k n)).sum := by
  induction l with
  | nil => intro s k n; simp
  | cons u rest ih =>
    intro s k n
    rw [List.foldl_cons, ih, stateBucket_aggStep, extFold_at, List.map_cons,
      List.sum_cons, add_assoc]
    rfl

theorem agg_par (l : List ClassifierOutput) :
    ∀ s k n, extParentsAt (stateBucket (l.foldl aggStep s) k) n
      = extParentsAt (stateBucket s k) n
          ∪ (l.map (fun u => parContrib u k n)).foldr (· ∪ ·) ∅ := by
  induction l with
  | nil => intro s k n; simp
  | cons u rest ih =>
    intro s k n
    rw [List.foldl_cons, ih, stateBucket_aggStep, parFold_at, List.map_cons,
      List.foldr_cons, Finset.union_assoc]
    rfl

theorem foldr_union_perm (l₁ l₂ : List (Finset String)) (h : l₁.Perm l₂) :
    l₁.foldr (· ∪ ·) ∅ = l₂.foldr (· ∪ ·) ∅ := by
  induction h with
  | nil => rfl
  | cons x h ih => rw [List.foldr_cons, List.foldr_cons, ih]
  | swap x y l =>
    rw [List.foldr_cons, List.foldr_cons, List.foldr_cons, List.foldr_cons,
      ← Finset.union_assoc, ← Finset.union_assoc, Finset.union_comm y x]
  | trans h₁ h₂ ih₁ ih₂ => rw [ih₁, ih₂]

/-- C8: aggregation is order-independent: for every input sequence of
classified records and every permutation of it, the resulting aggregate
maps each name to the same multiset of VersionRecords and, for
extensions and components, the same contributing parent-software-name
set. -/
theorem aggregation_order_independent (l₁ l₂ : List ClassifierOutput)
    (hperm : l₁.Perm l₂) :
    (∀ n, swVersionsAt (get_all_software_aggregate l₁).software n
      = swVersionsAt (get_all_software_aggregate l₂).software n)
    ∧ (∀ k n, extVersionsAt (stateBucket (get_all_software_aggregate l₁) k) n
      = extVersionsAt (stateBucket (get_all_software_aggregate l₂) k) n)
    ∧ (∀ k n, extParentsAt (stateBucket (get_all_software_aggregate l₁) k) n
      = extParentsAt (stateBucket (get_all_software_aggregate l₂) k) n) := by
  refine ⟨?_, ?_, ?_⟩
  · intro n
    rw [get_all_software_aggregate, get_all_software_aggregate, agg_sw, agg_sw]
    congr 1
    exact List.Perm.sum_eq (hperm.map (fun u => swContrib u n))
  · intro k n
    rw [get_all_software_aggregate, get_all_software_aggregate, agg_ext, agg_ext]
    congr 1
    exact List.Perm.sum_eq (hperm.map (fun u => extContrib u k n))
  · intro k n
    rw [get_all_software_aggregate, get_all_software_aggregate, agg_par, agg_par]
    congr 1
    exact foldr_union_perm _ _ (hperm.map (fun u => parContrib u k n))

/-- Two small classified records for exercising C8 concretely. -/
def aggU1 : ClassifierOutput :=
  ⟨[("pkgA", ⟨[{ version := "1.0" }]⟩)], emptyExtBuckets, []⟩

def aggU2 : ClassifierOutput :=
  ⟨[("pkgA", ⟨[{ version := "2.0" }]⟩)],
   ⟨[("extX", ⟨[{ version := "0.1" }], {"pkgA"}⟩)], [], [], [], []⟩, []⟩

/-- Witness for C8 at a two-record sequence and its swap. -/
theorem aggregation_order_independent_witness :
    [aggU1, aggU2].Perm [aggU2, aggU1]
    ∧ swVersionsAt (get_all_software_aggregate [aggU1, aggU2]).software "pkgA"
        = swVersionsAt (get_all_software_aggregate [aggU2, aggU1]).software "pkgA"
    ∧ extParentsAt (stateBucket (get_all_software_aggregate [aggU1, aggU2]) .python) "extX"
        = extParentsAt (stateBucket (get_all_software_aggregate [aggU2, aggU1]) .python) "extX" := by
  have hperm : [aggU1, aggU2].Perm [aggU2, aggU1] := List.Perm.swap aggU2 aggU1 []
  have h := aggregation_order_independent [aggU1, aggU2] [aggU2, aggU1] hperm
  exact ⟨hperm, h.1 "pkgA", h.2.2 .python "extX"⟩
